import Mathlib

/-!
Shallow embedding of `src/geom/src/tesselation/monotone.rs` (y-monotone
polygon decomposition and triangulation, lyon_f64 repository).

Conventions of the embedding:
* `f32` coordinates are embedded as exact rationals `ℚ`; every use the
  claims touch is a comparison or a guarded field computation, which the
  exact model reproduces faithfully (no NaN / rounding behaviour is
  claimed).
* Rust machinery that can panic (`panic!`, `Option::unwrap` on a failed
  sweep search) is embedded with `Option`: `none` is a panic, `some` a
  normal return.  `debug_assert!` lines are compiled out in release
  builds and do not affect any returned value; they are embedded as
  no-ops.
* The coordinate system is y-down, exactly as in the source comments.
-/

namespace MonotoneTess

/-- 2D point with rational coordinates (embeds `Vec2 = [f32; 2]`). -/
structure Vec2 where
  x : ℚ
  y : ℚ
deriving DecidableEq, Repr

/-- `vec2_sub` from `half_edge::vectors`: componentwise subtraction. -/
def vec2_sub (a b : Vec2) : Vec2 := ⟨a.x - b.x, a.y - b.y⟩

/-- Source line 54: `a.y() > b.y() || (a.y() == b.y() && a.x() > b.x())`. -/
def is_below (a b : Vec2) : Bool := a.y > b.y || (a.y == b.y && a.x > b.x)

/-- Cross product (z-component) of two plane vectors. -/
def cross2 (a b : Vec2) : ℚ := a.x * b.y - a.y * b.x

/-- Dot product of two plane vectors. -/
def dot2 (a b : Vec2) : ℚ := a.x * b.x + a.y * b.y

/-- Modelled from the spec: `directed_angle` (in `half_edge::vectors`, not
under `src/`) returns the counter-clockwise angle θ from `a` to `b`,
normalized to `[0, 2π)`.  For nonzero vectors, `θ < π` holds iff
`θ ∈ [0, π)`, i.e. iff `sin θ > 0` or `θ = 0`; in exact arithmetic this is
`cross2 a b > 0 ∨ (cross2 a b = 0 ∧ dot2 a b > 0)`. -/
def angle_lt_pi (a b : Vec2) : Bool :=
  0 < cross2 a b || (cross2 a b == 0 && 0 < dot2 a b)

/-- Modelled from the spec: for nonzero vectors the directed angle is `0`
iff the vectors point the same way, i.e. `cross2 a b = 0 ∧ dot2 a b > 0`;
this is the exact-arithmetic form of `interrior_angle != 0.0`. -/
def angle_ne_zero (a b : Vec2) : Bool :=
  !(cross2 a b == 0 && 0 < dot2 a b)

/-- Modelled from the spec: for nonzero vectors the directed angle in
`[0, 2π)` exceeds π iff `sin θ < 0`, i.e. iff `cross2 a b < 0`.  This is
the exact-arithmetic form of the triangulator's `directed_angle(..) > PI`
test. -/
def angle_gt_pi (a b : Vec2) : Bool := cross2 a b < 0

/-- The six vertex classes of the sweep (source lines 30–38). -/
inductive VertexType where
  | Start
  | End
  | Split
  | Merge
  | Left
  | Right
deriving DecidableEq, Repr

/-- Source lines 56–86 (`get_vertex_type`), with the two comparisons of
`interrior_angle = directed_angle(prev - current, next - current)` against
`PI` and `0.0` embedded through the exact-sign model above. -/
def get_vertex_type (prev current next : Vec2) : VertexType :=
  let u := vec2_sub prev current
  let v := vec2_sub next current
  let angle_ok := angle_lt_pi u v && angle_ne_zero u v
  if is_below current prev && is_below current next then
    if angle_ok then VertexType.Merge else VertexType.End
  else if !is_below current prev && !is_below current next then
    if angle_ok then VertexType.Split else VertexType.Start
  else if prev.y = next.y then
    if prev.x < next.x then VertexType.Right else VertexType.Left
  else if prev.y < next.y then VertexType.Right
  else VertexType.Left

/-- Source lines 88–97: x-coordinate where segment `a`–`b` meets the
horizontal line at height `y`; a horizontal segment yields its right-most
x. -/
def intersect_segment_with_horizontal (a b : Vec2) (y : ℚ) : ℚ :=
  let vx := b.x - a.x
  let vy := b.y - a.y
  if vy = 0 then max a.x b.x
  else a.x + (y - a.y) * vx / vy

/-- Error type of the decomposer (source lines 40–45). -/
inductive DecompositionError where
  | OpenPath
  | WrongWindingOrder
  | MissingFace
deriving DecidableEq, Repr

/-- A point handle `ComplexPointId`: (sub-polygon index, index in ring). -/
abbrev CPointId := Nat × Nat

/-- A complex polygon: the main ring followed by hole rings, each ring the
list of its vertex positions in ring order.  This combines the polygon
oracle (`vertex`, `next`, `previous`, ring enumeration) with the read-only
position table, which is how the decomposer consumes them. -/
structure CPolygon where
  rings : List (List Vec2)
deriving Repr

/-- Number of points of ring `r`. -/
def CPolygon.ringLen (P : CPolygon) (r : Nat) : Nat := (P.rings.getD r []).length

/-- Position of the vertex at point `p` (`vertex_positions[polygon.vertex(p)]`). -/
def CPolygon.posOf (P : CPolygon) (p : CPointId) : Vec2 :=
  (P.rings.getD p.1 []).getD p.2 ⟨0, 0⟩

/-- `polygon.next(p)`: successor in the ring, wrapping around. -/
def CPolygon.nextP (P : CPolygon) (p : CPointId) : CPointId :=
  (p.1, (p.2 + 1) % P.ringLen p.1)

/-- `polygon.previous(p)`: predecessor in the ring, wrapping around. -/
def CPolygon.prevP (P : CPolygon) (p : CPointId) : CPointId :=
  (p.1, (p.2 + P.ringLen p.1 - 1) % P.ringLen p.1)

/-- All point ids, main ring first then holes, ring order inside each ring
(the order produced by lines 199–206 of the source). -/
def CPolygon.pointIds (P : CPolygon) : List CPointId :=
  (List.range P.rings.length).flatMap
    (fun r => (List.range (P.ringLen r)).map (fun i => (r, i)))

/-- `num_vertices`: total number of points over all rings. -/
def CPolygon.num_vertices (P : CPolygon) : Nat :=
  (P.rings.map List.length).sum

/-- The comparator of source lines 210–218 (sort by increasing y, then x),
expressed as the `le` relation of a stable sort: `a` is not
`Ordering::Greater` than `b`. -/
def sort_le (P : CPolygon) (a b : CPointId) : Prop :=
  (P.posOf a).y < (P.posOf b).y ∨
    ((P.posOf a).y = (P.posOf b).y ∧ (P.posOf a).x ≤ (P.posOf b).x)

instance sort_le_dec (P : CPolygon) : DecidableRel (sort_le P) := fun a b => by
  unfold sort_le
  infer_instance

/-- The sorted event list: all point ids, stably sorted by (y, x) of their
vertex position.  Rust's `sort_by` is a stable sort; since `sort_le` is a
total preorder, any stable sort produces the same list, and insertion
sort is used here. -/
def sorted_edges (P : CPolygon) : List CPointId :=
  List.insertionSort (sort_le P) P.pointIds

/-- x-intercept of the outgoing edge of `e` (`e → next(e)`) with the
horizontal line at height `y`. -/
def edge_x_at (P : CPolygon) (y : ℚ) (e : CPointId) : ℚ :=
  intersect_segment_with_horizontal (P.posOf e) (P.posOf (P.nextP e)) y

/-- The sweep comparator: x-intercept at the current sweep height, in
non-decreasing order (`partial_cmp` on the intercepts, source lines
113–120). -/
def sweep_le (P : CPolygon) (y : ℚ) (a b : CPointId) : Prop :=
  edge_x_at P y a ≤ edge_x_at P y b

instance sweep_le_dec (P : CPolygon) (y : ℚ) : DecidableRel (sweep_le P y) :=
  fun a b => by
    unfold sweep_le
    infer_instance

/-- `SweepLineBuilder::add` (source lines 110–123): push the new edge and
re-sort the whole sweep status by x-intercept at the current vertex's y
(`sort_by` is a stable ascending sort; insertion sort is one). -/
def sweep_add (P : CPolygon) (current : Vec2) (sweep : List CPointId)
    (e : CPointId) : List CPointId :=
  List.insertionSort (sweep_le P current.y) (sweep ++ [e])

/-- `SweepLineBuilder::remove` (source lines 125–128): `retain(≠ e)`. -/
def sweep_remove (sweep : List CPointId) (e : CPointId) : List CPointId :=
  sweep.filter (fun item => item ≠ e)

/-- `SweepLineBuilder::find_right_of_current_vertex` (source lines
131–143): first active edge whose x-intercept at the current y is
`≥ current.x`; `none` embeds the `panic!` when no such edge exists. -/
def find_right_of_current_vertex (P : CPolygon) (current : Vec2)
    (sweep : List CPointId) : Option CPointId :=
  sweep.find? (fun e => current.x ≤ edge_x_at P current.y e)

/-- The helper table `HashMap<ComplexPointId, (ComplexPointId, VertexType)>`,
embedded as an association list with replace-on-insert. -/
abbrev Helper := List (CPointId × (CPointId × VertexType))

/-- Map lookup. -/
def hget (h : Helper) (k : CPointId) : Option (CPointId × VertexType) :=
  (h.find? (fun kv => kv.1 = k)).map (fun kv => kv.2)

/-- Map insert (replaces any previous binding of `k`). -/
def hinsert (h : Helper) (k : CPointId) (v : CPointId × VertexType) : Helper :=
  (k, v) :: h.filter (fun kv => kv.1 ≠ k)

/-- Map remove. -/
def hremove (h : Helper) (k : CPointId) : Helper :=
  h.filter (fun kv => kv.1 ≠ k)

/-- `connect_with_helper_if_merge_vertex` (source lines 146–155): add the
diagonal `(helper[helper_edge].point, current_edge)` exactly when the
helper of `helper_edge` exists and its recorded type is `Merge`. -/
def connect_with_helper_if_merge_vertex (current_edge helper_edge : CPointId)
    (helpers : Helper) (diagonals : List (CPointId × CPointId)) :
    List (CPointId × CPointId) :=
  match hget helpers helper_edge with
  | some (h, VertexType.Merge) => diagonals ++ [(h, current_edge)]
  | _ => diagonals

/-- Mutable state of one decomposition call: the sweep status, the helper
table, and the diagonals sink. -/
structure DecompState where
  sweep : List CPointId
  helper : Helper
  diagonals : List (CPointId × CPointId)
deriving Repr

/-- One iteration of the dispatch loop (source lines 220–279): classify
the vertex of `e` and perform the matching sweep/helper/diagonal actions.
`none` embeds the panics inside `find_right_of_current_vertex` and the
`panic!()` of the Split arm. -/
def decomp_step (P : CPolygon) (st : DecompState) (e : CPointId) :
    Option DecompState :=
  let prev := P.prevP e
  let next := P.nextP e
  let current_vertex := P.posOf e
  let previous_vertex := P.posOf prev
  let next_vertex := P.posOf next
  match get_vertex_type previous_vertex current_vertex next_vertex with
  | VertexType.Start =>
      some { sweep := sweep_add P current_vertex st.sweep e,
             helper := hinsert st.helper e (e, VertexType.Start),
             diagonals := st.diagonals }
  | VertexType.End =>
      some { sweep := sweep_remove st.sweep prev,
             helper := st.helper,
             diagonals := connect_with_helper_if_merge_vertex e prev st.helper st.diagonals }
  | VertexType.Split =>
      match find_right_of_current_vertex P current_vertex st.sweep with
      | none => none
      | some ej =>
        match hget st.helper ej with
        | none => none
        | some (helper_edge, _) =>
            some { sweep := sweep_add P current_vertex st.sweep e,
                   helper := hinsert (hinsert st.helper ej (e, VertexType.Split))
                               e (e, VertexType.Split),
                   diagonals := st.diagonals ++ [(e, helper_edge)] }
  | VertexType.Merge =>
      let diagonals := connect_with_helper_if_merge_vertex e prev st.helper st.diagonals
      let sweep := sweep_remove st.sweep prev
      match find_right_of_current_vertex P current_vertex sweep with
      | none => none
      | some ej =>
          some { sweep := sweep,
                 helper := hinsert st.helper ej (e, VertexType.Merge),
                 diagonals := connect_with_helper_if_merge_vertex e ej st.helper diagonals }
  | VertexType.Right =>
      let diagonals := connect_with_helper_if_merge_vertex e prev st.helper st.diagonals
      let helper := hremove st.helper prev
      let sweep := sweep_remove st.sweep prev
      some { sweep := sweep_add P current_vertex sweep e,
             helper := hinsert helper e (e, VertexType.Right),
             diagonals := diagonals }
  | VertexType.Left =>
      match find_right_of_current_vertex P current_vertex st.sweep with
      | none => none
      | some ej =>
          some { sweep := st.sweep,
                 helper := hinsert st.helper ej (e, VertexType.Left),
                 diagonals := connect_with_helper_if_merge_vertex e ej st.helper st.diagonals }

/-- The dispatch loop over the sorted event list. -/
def decomp_run (P : CPolygon) : List CPointId → DecompState → Option DecompState
  | [], st => some st
  | e :: rest, st =>
      match decomp_step P st e with
      | none => none
      | some st' => decomp_run P rest st'

/-- `DecompositionContext::y_monotone_polygon_decomposition` (source lines
181–286).  The helper table is cleared and the sweep vector re-created
empty at entry (lines 189–197), the event list is gathered and sorted
(lines 199–218), the dispatch loop runs, and the only return statement is
`Ok(())` (line 285).  The result pairs the returned `Result` with the
final scratch state (the context's retained helper table, the sweep
vector at the moment it is recycled, and the diagonals written to the
sink); `none` embeds a panic.  The winding `debug_assert` of lines 200–204
is compiled out in release builds and does not affect the returned
value. -/
def y_monotone_polygon_decomposition (P : CPolygon) :
    Option (Except DecompositionError Unit × DecompState) :=
  match decomp_run P (sorted_edges P) ⟨[], [], []⟩ with
  | none => none
  | some st => some (Except.ok (), st)

/-! ### The y-monotone triangulator (source lines 345–555) -/

/-- `is_y_monotone` (source lines 290–307): true iff no point of the ring
classifies as Split or Merge. -/
def is_y_monotone_pts (pts : List Vec2) : Bool :=
  (List.range pts.length).all (fun i =>
    let n := pts.length
    let prevv := pts.getD ((i + n - 1) % n) ⟨0, 0⟩
    let curr := pts.getD i ⟨0, 0⟩
    let nextv := pts.getD ((i + 1) % n) ⟨0, 0⟩
    match get_vertex_type prevv curr nextv with
    | VertexType.Split => false
    | VertexType.Merge => false
    | _ => true)

/-- Error type of the triangulator (source lines 47–52). -/
inductive TriangulationError where
  | NotMonotone
  | InvalidPath
  | MissingFace
deriving DecidableEq, Repr

/-- Traversal direction of a circulator over the ring. -/
inductive Direction where
  | Forward
  | Backward
deriving DecidableEq, Repr

/-- `Direction::reverse`. -/
def Direction.reverse : Direction → Direction
  | Direction.Forward => Direction.Backward
  | Direction.Backward => Direction.Forward

/-- A y-monotone polygon view together with the position table: `pts` is
the ring as a list of `VertexId` handles (`PolygonView::vertices`), and
`positions` is the read-only table `VertexId → Vec2`. -/
structure MPoly where
  pts : List Nat
  positions : List Vec2
deriving Repr

/-- Ring length (`num_vertices`). -/
def MPoly.n (P : MPoly) : Nat := P.pts.length

/-- `polygon.vertex(p)`: the `VertexId` handle stored at ring point `p`. -/
def MPoly.vidOf (P : MPoly) (i : Nat) : Nat := P.pts.getD i 0

/-- Position-table lookup `vertex_positions[id].position()`. -/
def MPoly.posOfVid (P : MPoly) (v : Nat) : Vec2 := P.positions.getD v ⟨0, 0⟩

/-- Position of the vertex at ring point `i`. -/
def MPoly.posAt (P : MPoly) (i : Nat) : Vec2 := P.posOfVid (P.vidOf i)

/-- Modelled from the spec: `polygon.advance(point, direction)` (the
polygon oracle's method, not under `src/`) steps one ring position in the
given direction, wrapping around the ring. -/
def MPoly.advance (P : MPoly) (i : Nat) (d : Direction) : Nat :=
  match d with
  | Direction.Forward => (i + 1) % P.n
  | Direction.Backward => (i + P.n - 1) % P.n

/-- A circulator: a ring point plus a traversal direction (source lines
381–385). -/
structure Circulator where
  point : Nat
  direction : Direction
deriving DecidableEq, Repr

/-- `next(circ)` (source line 378). -/
def cnext (P : MPoly) (c : Circulator) : Circulator :=
  ⟨P.advance c.point c.direction, c.direction⟩

/-- `previous(circ)` (source line 379). -/
def cprev (P : MPoly) (c : Circulator) : Circulator :=
  ⟨P.advance c.point c.direction.reverse, c.direction⟩

/-- Position of a circulator's vertex (source line 377). -/
def cvertex (P : MPoly) (c : Circulator) : Vec2 := P.posAt c.point

/-- First search loop (source lines 390–399): advance `down` until its y
differs from `up`'s, guarding against the all-coincident degenerate case
by stopping when `down` returns to `up`.  Fueled; `none` means the fuel
ran out before the loop exited. -/
def find_initial_down (P : MPoly) (up : Circulator) :
    Nat → Circulator → Option Circulator
  | 0, _ => none
  | fuel + 1, down =>
      let down' := cnext P down
      if (cvertex P up).y ≠ (cvertex P down').y then some down'
      else if down' = up then some down'
      else find_initial_down P up fuel down'

/-- Second search loop (source lines 406–422): walk `down` to the
bottom-most vertex (largest y), stepping back one position once the next
vertex lies above the running maximum, with a guard that stops after one
full traversal. -/
def find_down_loop (P : MPoly) (guard : Circulator) :
    Nat → Circulator → Vec2 → Option Circulator
  | 0, _, _ => none
  | fuel + 1, down, big_y =>
      let down' := cnext P down
      let new_y := cvertex P down'
      if is_below big_y new_y then some (cprev P down')
      else if down' = guard then some down'
      else find_down_loop P guard fuel down' new_y

/-- Third search loop (source lines 424–439): walk `up` to the top-most
vertex (smallest y), symmetric to `find_down_loop`. -/
def find_up_loop (P : MPoly) (guard : Circulator) :
    Nat → Circulator → Vec2 → Option Circulator
  | 0, _, _ => none
  | fuel + 1, up, small_y =>
      let up' := cnext P up
      let new_y := cvertex P up'
      if is_below new_y small_y then some (cprev P up')
      else if up' = guard then some up'
      else find_up_loop P guard fuel up' new_y

/-- An emitted triangle: the three `VertexId` handles pushed through
`output.push_indices`. -/
abbrev Tri := Nat × Nat × Nat

/-- The inner pop loop of the same-chain branch (source lines 504–528):
while the stack is nonempty and the (winding-adjusted) triangle formed by
the stack top, the last popped vertex and `m` has directed angle `> π` at
the middle vertex, emit it and pop.  Returns the remaining stack, the
final `last_popped`, and the emitted triangles appended to `out`. -/
def pop_loop (P : MPoly) (m : Circulator) (stack : List Circulator)
    (last_popped : Circulator) (out : List Tri) :
    List Circulator × Circulator × List Tri :=
  if hs : stack = [] then (stack, last_popped, out)
  else
    let top := stack.getLast hs
    let id1 := P.vidOf top.point
    let id2 := P.vidOf last_popped.point
    let id3 := P.vidOf m.point
    let ids : Nat × Nat :=
      if m.direction = Direction.Backward then (id3, id1) else (id1, id3)
    let v1 := P.posOfVid ids.1
    let v2 := P.posOfVid id2
    let v3 := P.posOfVid ids.2
    if angle_gt_pi (vec2_sub v1 v2) (vec2_sub v3 v2) then
      pop_loop P m stack.dropLast top (out ++ [(ids.1, id2, ids.2)])
    else (stack, last_popped, out)
  termination_by stack.length
  decreasing_by
    have hpos := List.length_pos.mpr hs
    simp [List.length_dropLast]
    omega

/-- The same-chain branch (source lines 500–535): pop once, run the pop
loop, push back the last popped vertex (when any) and then `m`. -/
def same_chain_branch (P : MPoly) (m : Circulator) (stack : List Circulator)
    (out : List Tri) : List Circulator × List Tri :=
  match stack.getLast? with
  | none => (stack ++ [m], out)
  | some lp =>
      let res := pop_loop P m stack.dropLast lp out
      (res.1 ++ [res.2.1, m], res.2.2)

/-- The chain-switch branch (source lines 485–499): emit a fan
`(m, stack[i], stack[i+1])` over consecutive stack entries, clear the
stack, and push `p` then `m`. -/
def chain_switch_branch (P : MPoly) (m p : Circulator) (stack : List Circulator)
    (out : List Tri) : List Circulator × List Tri :=
  let fan := (stack.zip stack.tail).map
    (fun ab => (P.vidOf m.point, P.vidOf ab.1.point, P.vidOf ab.2.point))
  ([p, m], out ++ fan)

/-- State of the triangulator's main loop. -/
structure TriState where
  m : Circulator
  o : Circulator
  p : Circulator
  stack : List Circulator
  out : List Tri
  i : Int
deriving Repr

/-- One iteration of the triangulator's main loop (source lines 471–548):
swap so the higher walker is current, do the stack work, and either break
(`Sum.inl`, both walkers on `down`'s ring point) or advance (`Sum.inr`).
The final `debug_assert!(!is_below(vertex(p), vertex(m)))` is a no-op in
release builds. -/
def tri_step (P : MPoly) (down : Circulator) (st : TriState) :
    TriState ⊕ TriState :=
  let mo : Circulator × Circulator :=
    if is_below (cvertex P st.m) (cvertex P st.o) || st.m = down
    then (st.o, st.m) else (st.m, st.o)
  let m := mo.1
  let o := mo.2
  let so : List Circulator × List Tri :=
    if st.i < 2 then (st.stack ++ [m], st.out)
    else
      match st.stack.getLast? with
      | some lastc =>
          if m.direction ≠ lastc.direction then
            chain_switch_branch P m st.p st.stack st.out
          else same_chain_branch P m st.stack st.out
      | none => same_chain_branch P m st.stack st.out
  if m.point = down.point ∧ o.point = down.point then
    Sum.inl { m := m, o := o, p := st.p, stack := so.1, out := so.2, i := st.i }
  else
    Sum.inr { m := cnext P m, o := o, p := m, stack := so.1, out := so.2,
              i := st.i + 1 }

/-- Main loop of the triangulator, fueled iteration of `tri_step`;
`none` means the fuel ran out (the source loop is an unbounded `loop`). -/
def tri_loop (P : MPoly) (down : Circulator) :
    Nat → TriState → Option TriState
  | 0, _ => none
  | fuel + 1, st =>
      match tri_step P down st with
      | Sum.inl fin => some fin
      | Sum.inr st' => tri_loop P down fuel st'

/-- Unfolding lemma: a continuing step consumes one unit of fuel. -/
theorem tri_loop_cont (P : MPoly) (down : Circulator) (fuel : Nat)
    (st st' : TriState) (h : tri_step P down st = Sum.inr st') :
    tri_loop P down (fuel + 1) st = tri_loop P down fuel st' := by
  simp [tri_loop, h]

/-- Unfolding lemma: a breaking step returns the final state. -/
theorem tri_loop_done (P : MPoly) (down : Circulator) (fuel : Nat)
    (st fin : TriState) (h : tri_step P down st = Sum.inl fin) :
    tri_loop P down (fuel + 1) st = some fin := by
  simp [tri_loop, h]

/-- `TriangulationContext::y_monotone_triangulation` (source lines
366–554): the three initial search loops, the dual-walker set-up of lines
445–461, and the main loop; the single return statement is `Ok(())`
(line 553).  `fuel` bounds each of the four loops; `none` embeds fuel
exhaustion (the source loops are unbounded `loop`s).  Returns the
`Result` together with the list of emitted triangles. -/
def y_monotone_triangulation (fuel : Nat) (P : MPoly) :
    Option (Except TriangulationError Unit × List Tri) :=
  let up0 : Circulator := ⟨0, Direction.Forward⟩
  match find_initial_down P up0 fuel up0 with
  | none => none
  | some down0 =>
    let upDir := if is_below (cvertex P up0) (cvertex P down0)
                 then Direction.Forward else Direction.Backward
    let up1 : Circulator := ⟨up0.point, upDir⟩
    let down1 : Circulator := ⟨down0.point, upDir.reverse⟩
    match find_down_loop P down1 fuel down1 (cvertex P down1) with
    | none => none
    | some down =>
      match find_up_loop P up1 fuel up1 (cvertex P up1) with
      | none => none
      | some up =>
        let m0 : Circulator := ⟨up.point, Direction.Forward⟩
        let o0 : Circulator := ⟨up.point, Direction.Backward⟩
        let m1 := cnext P m0
        let o1 := cnext P o0
        let mo : Circulator × Circulator :=
          if is_below (cvertex P m1) (cvertex P o1) then (o1, m1) else (m1, o1)
        let m2 := cprev P mo.1
        let st0 : TriState :=
          { m := m2, o := mo.2, p := m2, stack := [], out := [], i := 0 }
        match tri_loop P down fuel st0 with
        | none => none
        | some stF => some (Except.ok (), stF.out)

/-! ### Order facts about `is_below` (shared helpers) -/

/-- `is_below` is true exactly on the strict lexicographic (y, x) order. -/
theorem is_below_iff (a b : Vec2) :
    is_below a b = true ↔ (a.y > b.y ∨ (a.y = b.y ∧ a.x > b.x)) := by
  simp [is_below, Bool.or_eq_true, Bool.and_eq_true, decide_eq_true_eq, beq_iff_eq]

/-- `is_below` is false exactly on the non-strict reverse order. -/
theorem is_below_eq_false_iff (a b : Vec2) :
    is_below a b = false ↔ (a.y < b.y ∨ (a.y = b.y ∧ a.x ≤ b.x)) := by
  rw [← Bool.not_eq_true, is_below_iff]
  push_neg
  constructor
  · rintro ⟨h1, h2⟩
    rcases eq_or_lt_of_le h1 with he | hl
    · exact Or.inr ⟨he, h2 he⟩
    · exact Or.inl hl
  · rintro (hl | ⟨he, hx⟩)
    · exact ⟨le_of_lt hl, fun h => absurd h (ne_of_lt hl)⟩
    · exact ⟨le_of_eq he, fun _ => hx⟩

/-- With distinct points, `is_below` is the complement of its converse. -/
theorem is_below_false_of_ne (a b : Vec2) (hne : a ≠ b)
    (h : is_below a b = false) : is_below b a = true := by
  rw [is_below_eq_false_iff] at h
  rw [is_below_iff]
  rcases h with hl | ⟨he, hx⟩
  · exact Or.inl hl
  · rcases eq_or_lt_of_le hx with hxe | hxl
    · exact absurd (by cases a; cases b; simp_all) hne
    · exact Or.inr ⟨he.symm, hxl⟩

/-- Vertex types whose dispatch inserts the current point's outgoing
edge into the sweep state (source: Start, Split, Right arms). -/
def vt_inserts : VertexType → Bool
  | VertexType.Start => true
  | VertexType.Split => true
  | VertexType.Right => true
  | _ => false

/-- Vertex types whose dispatch removes the previous point's edge from
the sweep state (source: End, Merge, Right arms). -/
def vt_removes : VertexType → Bool
  | VertexType.End => true
  | VertexType.Merge => true
  | VertexType.Right => true
  | _ => false

/-- The classification inserts the outgoing edge exactly when the current
vertex is not below its successor, and removes the incoming edge exactly
when the current vertex is below its predecessor. -/
theorem get_vertex_type_order (p c n : Vec2) :
    vt_inserts (get_vertex_type p c n) = !is_below c n ∧
    vt_removes (get_vertex_type p c n) = is_below c p := by
  unfold get_vertex_type
  cases hp : is_below c p <;> cases hn : is_below c n
  · constructor <;>
      [skip; skip] <;>
      (by_cases ha : (angle_lt_pi (vec2_sub p c) (vec2_sub n c) &&
          angle_ne_zero (vec2_sub p c) (vec2_sub n c)) = true <;>
        simp [ha, vt_inserts, vt_removes])
  · rw [is_below_eq_false_iff] at hp
    rw [is_below_iff] at hn
    have hleft : (if p.y = n.y then
        (if p.x < n.x then VertexType.Right else VertexType.Left)
      else if p.y < n.y then VertexType.Right else VertexType.Left) =
        VertexType.Left := by
      rcases hp with hp1 | ⟨hp1, hp2⟩ <;> rcases hn with hn1 | ⟨hn1, hn2⟩ <;>
        split_ifs with h1 h2 <;>
        first | rfl | (exfalso; linarith) | (exact absurd (by linarith : p.y = n.y) h1)
    simp [hleft, vt_inserts, vt_removes]
  · rw [is_below_iff] at hp
    rw [is_below_eq_false_iff] at hn
    have hright : (if p.y = n.y then
        (if p.x < n.x then VertexType.Right else VertexType.Left)
      else if p.y < n.y then VertexType.Right else VertexType.Left) =
        VertexType.Right := by
      rcases hp with hp1 | ⟨hp1, hp2⟩ <;> rcases hn with hn1 | ⟨hn1, hn2⟩ <;>
        split_ifs with h1 h2 <;>
        first | rfl | (exfalso; linarith) | (exact absurd (by linarith : p.y = n.y) h1)
    simp [hright, vt_inserts, vt_removes]
  · constructor <;>
      [skip; skip] <;>
      (by_cases ha : (angle_lt_pi (vec2_sub p c) (vec2_sub n c) &&
          angle_ne_zero (vec2_sub p c) (vec2_sub n c)) = true <;>
        simp [ha, vt_inserts, vt_removes])

/-! ### Ring-structure and event-order helpers -/

/-- Membership in the event set, characterised by index bounds. -/
theorem mem_pointIds_iff (P : CPolygon) (p : CPointId) :
    p ∈ P.pointIds ↔ p.1 < P.rings.length ∧ p.2 < P.ringLen p.1 := by
  cases p with
  | mk r i =>
    simp only [CPolygon.pointIds, List.mem_flatMap, List.mem_map, List.mem_range]
    constructor
    · rintro ⟨r', hr', i', hi', heq⟩
      simp only [Prod.mk.injEq] at heq
      obtain ⟨h1, h2⟩ := heq
      subst h1
      subst h2
      exact ⟨hr', hi'⟩
    · rintro ⟨hr, hi⟩
      exact ⟨r, hr, i, hi, rfl⟩

/-- The ring of a point present in the event set is nonempty. -/
theorem ringLen_pos (P : CPolygon) {p : CPointId} (hp : p ∈ P.pointIds) :
    0 < P.ringLen p.1 :=
  Nat.lt_of_le_of_lt (Nat.zero_le _) ((mem_pointIds_iff P p).mp hp).2

/-- `nextP` stays inside the event set. -/
theorem nextP_mem (P : CPolygon) {p : CPointId} (hp : p ∈ P.pointIds) :
    P.nextP p ∈ P.pointIds := by
  obtain ⟨hr, hi⟩ := (mem_pointIds_iff P p).mp hp
  rw [mem_pointIds_iff]
  exact ⟨hr, Nat.mod_lt _ (Nat.lt_of_le_of_lt (Nat.zero_le _) hi)⟩

/-- `prevP` stays inside the event set. -/
theorem prevP_mem (P : CPolygon) {p : CPointId} (hp : p ∈ P.pointIds) :
    P.prevP p ∈ P.pointIds := by
  obtain ⟨hr, hi⟩ := (mem_pointIds_iff P p).mp hp
  rw [mem_pointIds_iff]
  exact ⟨hr, Nat.mod_lt _ (Nat.lt_of_le_of_lt (Nat.zero_le _) hi)⟩

/-- The predecessor index in closed form. -/
theorem prevP_index {len i : Nat} (hlen : 0 < len) (hi : i < len) :
    (i + len - 1) % len = if i = 0 then len - 1 else i - 1 := by
  cases i with
  | zero => simp [Nat.mod_eq_of_lt (Nat.sub_lt hlen Nat.one_pos)]
  | succ j =>
    have h1 : j + 1 + len - 1 = j + len := by omega
    rw [h1, Nat.add_mod_right]
    have : j < len := Nat.lt_of_succ_lt hi
    simp [Nat.mod_eq_of_lt this]

/-- Going back then forward returns to the same point. -/
theorem nextP_prevP (P : CPolygon) {p : CPointId} (hp : p ∈ P.pointIds) :
    P.nextP (P.prevP p) = p := by
  obtain ⟨hr, hi⟩ := (mem_pointIds_iff P p).mp hp
  cases p with
  | mk r i =>
    simp only [CPolygon.nextP, CPolygon.prevP] at *
    have hlen : 0 < P.ringLen r := Nat.lt_of_le_of_lt (Nat.zero_le _) hi
    rw [prevP_index hlen hi]
    by_cases h0 : i = 0
    · subst h0
      simp [Nat.sub_add_cancel hlen, Nat.mod_self]
    · have h1 : i - 1 + 1 = i := Nat.succ_pred_eq_of_pos (Nat.pos_of_ne_zero h0)
      simp [h0, h1, Nat.mod_eq_of_lt hi]

/-- Going forward then back returns to the same point. -/
theorem prevP_nextP (P : CPolygon) {p : CPointId} (hp : p ∈ P.pointIds) :
    P.prevP (P.nextP p) = p := by
  obtain ⟨hr, hi⟩ := (mem_pointIds_iff P p).mp hp
  cases p with
  | mk r i =>
    simp only [CPolygon.nextP, CPolygon.prevP] at *
    have hlen : 0 < P.ringLen r := Nat.lt_of_le_of_lt (Nat.zero_le _) hi
    by_cases hlast : i + 1 = P.ringLen r
    · rw [hlast, Nat.mod_self]
      rw [prevP_index hlen hlen]
      have h0 : (if (0 : Nat) = 0 then P.ringLen r - 1 else 0 - 1) =
          P.ringLen r - 1 := if_pos rfl
      rw [h0]
      simp only [Prod.mk.injEq, true_and]
      omega
    · have hi1 : i + 1 < P.ringLen r := Nat.lt_of_le_of_ne hi hlast
      rw [Nat.mod_eq_of_lt hi1]
      rw [prevP_index hlen hi1]
      simp

/-- The event list has no duplicate point ids. -/
theorem pointIds_nodup (P : CPolygon) : P.pointIds.Nodup := by
  unfold CPolygon.pointIds
  rw [List.nodup_flatMap]
  constructor
  · intro r _
    refine (List.nodup_range _).map ?_
    intro a b h
    simpa using congrArg Prod.snd h
  · refine (List.nodup_range _).pairwise_of_forall_ne ?_
    intro r s _ _ hrs
    intro x hx hx'
    simp only [List.mem_map, List.mem_range] at hx hx'
    obtain ⟨i, _, hi⟩ := hx
    obtain ⟨j, _, hj⟩ := hx'
    rw [← hi] at hj
    exact hrs (by simpa using (congrArg Prod.fst hj).symm)

/-- `nextP` is injective on the event set. -/
theorem nextP_injOn (P : CPolygon) {p q : CPointId} (hp : p ∈ P.pointIds)
    (hq : q ∈ P.pointIds) (h : P.nextP p = P.nextP q) : p = q := by
  have := congrArg P.prevP h
  rwa [prevP_nextP P hp, prevP_nextP P hq] at this

/-- The event comparator agrees with the negation of `is_below`. -/
theorem sort_le_iff_not_below (P : CPolygon) (a b : CPointId) :
    sort_le P a b ↔ is_below (P.posOf a) (P.posOf b) = false := by
  rw [is_below_eq_false_iff]
  rfl

instance sort_le_total (P : CPolygon) : IsTotal CPointId (sort_le P) := by
  constructor
  intro a b
  unfold sort_le
  rcases lt_trichotomy (P.posOf a).y (P.posOf b).y with h | h | h
  · exact Or.inl (Or.inl h)
  · rcases le_total (P.posOf a).x (P.posOf b).x with hx | hx
    · exact Or.inl (Or.inr ⟨h, hx⟩)
    · exact Or.inr (Or.inr ⟨h.symm, hx⟩)
  · exact Or.inr (Or.inl h)

instance sort_le_trans (P : CPolygon) : IsTrans CPointId (sort_le P) := by
  constructor
  intro a b c hab hbc
  unfold sort_le at *
  rcases hab with h1 | ⟨h1, h1x⟩ <;> rcases hbc with h2 | ⟨h2, h2x⟩
  · exact Or.inl (lt_trans h1 h2)
  · exact Or.inl (h2 ▸ h1)
  · exact Or.inl (h1 ▸ h2)
  · exact Or.inr ⟨h1.trans h2, le_trans h1x h2x⟩

/-- The event list is sorted under the comparator. -/
theorem sorted_edges_sorted (P : CPolygon) :
    List.Pairwise (sort_le P) (sorted_edges P) :=
  List.sorted_insertionSort (sort_le P) P.pointIds

/-- The event list is a permutation of the point ids. -/
theorem sorted_edges_perm (P : CPolygon) :
    (sorted_edges P).Perm P.pointIds :=
  List.perm_insertionSort (sort_le P) P.pointIds

/-- The event list has no duplicates. -/
theorem sorted_edges_nodup (P : CPolygon) : (sorted_edges P).Nodup :=
  (sorted_edges_perm P).nodup_iff.mpr (pointIds_nodup P)

/-- Membership in the event list is membership in the point ids. -/
theorem mem_sorted_edges (P : CPolygon) {p : CPointId} :
    p ∈ sorted_edges P ↔ p ∈ P.pointIds :=
  (sorted_edges_perm P).mem_iff

/-- The outgoing edge of `e` gets inserted into the sweep exactly when
its origin is not below its endpoint. -/
def insb (P : CPolygon) (e : CPointId) : Bool :=
  !is_below (P.posOf e) (P.posOf (P.nextP e))

/-- The sweep-membership invariant: after dispatching exactly the events
of `past`, the sweep state holds exactly the inserted-and-not-yet-removed
edges. -/
def SweepInv (P : CPolygon) (past : List CPointId) (sweep : List CPointId) : Prop :=
  ∀ x, x ∈ sweep ↔ (x ∈ past ∧ insb P x = true ∧ P.nextP x ∉ past)

/-- Membership after `sweep_add`. -/
theorem mem_sweep_add (P : CPolygon) (cur : Vec2) (s : List CPointId)
    (e x : CPointId) : x ∈ sweep_add P cur s e ↔ x ∈ s ∨ x = e := by
  unfold sweep_add
  rw [(List.perm_insertionSort _ _).mem_iff]
  simp

/-- Membership after `sweep_remove`. -/
theorem mem_sweep_remove (s : List CPointId) (e x : CPointId) :
    x ∈ sweep_remove s e ↔ x ∈ s ∧ x ≠ e := by
  unfold sweep_remove
  simp

/-- Effect of one dispatch on sweep membership: the previous point's edge
is removed exactly when the current vertex is below its predecessor, and
the current point's edge is added exactly when `insb` holds. -/
theorem decomp_step_sweep_mem (P : CPolygon) (st st₂ : DecompState) (e : CPointId)
    (h : decomp_step P st e = some st₂) (x : CPointId) :
    x ∈ st₂.sweep ↔
      ((x ∈ st.sweep ∧
          (is_below (P.posOf e) (P.posOf (P.prevP e)) = true → x ≠ P.prevP e)) ∨
        (insb P e = true ∧ x = e)) := by
  have hord := get_vertex_type_order (P.posOf (P.prevP e)) (P.posOf e) (P.posOf (P.nextP e))
  simp only [decomp_step] at h
  cases hvt : get_vertex_type (P.posOf (P.prevP e)) (P.posOf e) (P.posOf (P.nextP e)) with
  | Start =>
    rw [hvt] at h hord
    have hins : insb P e = true := by
      unfold insb
      simp only [vt_inserts] at hord
      rw [← hord.1]
    have hrem : is_below (P.posOf e) (P.posOf (P.prevP e)) = false := by
      simp only [vt_removes] at hord
      rw [← hord.2]
    dsimp only at h
    injection h with h2
    rw [← h2]
    simp only [mem_sweep_add, hrem, hins]
    tauto
  | End =>
    rw [hvt] at h hord
    have hins : insb P e = false := by
      unfold insb
      simp only [vt_inserts] at hord
      rw [← Bool.not_not (is_below (P.posOf e) (P.posOf (P.nextP e))), ← hord.1]
      rfl
    have hrem : is_below (P.posOf e) (P.posOf (P.prevP e)) = true := by
      simp only [vt_removes] at hord
      rw [← hord.2]
    dsimp only at h
    injection h with h2
    rw [← h2]
    simp only [mem_sweep_remove, hrem, hins]
    tauto
  | Split =>
    rw [hvt] at h hord
    have hins : insb P e = true := by
      unfold insb
      simp only [vt_inserts] at hord
      rw [← hord.1]
    have hrem : is_below (P.posOf e) (P.posOf (P.prevP e)) = false := by
      simp only [vt_removes] at hord
      rw [← hord.2]
    dsimp only at h
    cases hfr : find_right_of_current_vertex P (P.posOf e) st.sweep with
    | none => rw [hfr] at h; exact absurd h (by simp)
    | some ej =>
      rw [hfr] at h
      dsimp only at h
      cases hh : hget st.helper ej with
      | none => rw [hh] at h; exact absurd h (by simp)
      | some hv =>
        rw [hh] at h
        dsimp only at h
        injection h with h2
        rw [← h2]
        simp only [mem_sweep_add, hrem, hins]
        tauto
  | Merge =>
    rw [hvt] at h hord
    have hins : insb P e = false := by
      unfold insb
      simp only [vt_inserts] at hord
      rw [← Bool.not_not (is_below (P.posOf e) (P.posOf (P.nextP e))), ← hord.1]
      rfl
    have hrem : is_below (P.posOf e) (P.posOf (P.prevP e)) = true := by
      simp only [vt_removes] at hord
      rw [← hord.2]
    dsimp only at h
    cases hfr : find_right_of_current_vertex P (P.posOf e)
        (sweep_remove st.sweep (P.prevP e)) with
    | none => rw [hfr] at h; exact absurd h (by simp)
    | some ej =>
      rw [hfr] at h
      dsimp only at h
      injection h with h2
      rw [← h2]
      simp only [mem_sweep_remove, hrem, hins]
      tauto
  | Right =>
    rw [hvt] at h hord
    have hins : insb P e = true := by
      unfold insb
      simp only [vt_inserts] at hord
      rw [← hord.1]
    have hrem : is_below (P.posOf e) (P.posOf (P.prevP e)) = true := by
      simp only [vt_removes] at hord
      rw [← hord.2]
    dsimp only at h
    injection h with h2
    rw [← h2]
    simp only [mem_sweep_add, mem_sweep_remove, hrem, hins]
    tauto
  | Left =>
    rw [hvt] at h hord
    have hins : insb P e = false := by
      unfold insb
      simp only [vt_inserts] at hord
      rw [← Bool.not_not (is_below (P.posOf e) (P.posOf (P.nextP e))), ← hord.1]
      rfl
    have hrem : is_below (P.posOf e) (P.posOf (P.prevP e)) = false := by
      simp only [vt_removes] at hord
      rw [← hord.2]
    dsimp only at h
    cases hfr : find_right_of_current_vertex P (P.posOf e) st.sweep with
    | none => rw [hfr] at h; exact absurd h (by simp)
    | some ej =>
      rw [hfr] at h
      dsimp only at h
      injection h with h2
      rw [← h2]
      simp only [hrem, hins]
      tauto

/-- The sweep-membership invariant is preserved by the whole dispatch
loop, for polygons whose consecutive ring points have distinct
positions. -/
theorem decomp_run_inv (P : CPolygon)
    (H1 : ∀ p ∈ P.pointIds, P.posOf p ≠ P.posOf (P.nextP p)) :
    ∀ (es past : List CPointId) (st st' : DecompState),
      sorted_edges P = past ++ es →
      SweepInv P past st.sweep →
      decomp_run P es st = some st' →
      SweepInv P (sorted_edges P) st'.sweep := by
  intro es
  induction es with
  | nil =>
    intro past st st' hsplit hinv hrun
    simp only [decomp_run] at hrun
    injection hrun with h2
    rw [← h2, hsplit, List.append_nil]
    exact hinv
  | cons e rest ih =>
    intro past st st' hsplit hinv hrun
    simp only [decomp_run] at hrun
    cases hstep : decomp_step P st e with
    | none => rw [hstep] at hrun; exact absurd hrun (by simp)
    | some st₂ =>
      rw [hstep] at hrun
      refine ih (past ++ [e]) st₂ st'
        (by rw [hsplit, List.append_assoc]; rfl) ?_ hrun
      have hmem_split : ∀ a, a ∈ past ++ e :: rest ↔ a ∈ sorted_edges P := by
        intro a
        rw [hsplit]
      have hpast_pids : ∀ a ∈ past, a ∈ P.pointIds := by
        intro a ha
        exact (mem_sorted_edges P).mp
          ((hmem_split a).mp (List.mem_append_left _ ha))
      have he_pids : e ∈ P.pointIds :=
        (mem_sorted_edges P).mp
          ((hmem_split e).mp (List.mem_append_right _ (List.mem_cons_self e rest)))
      have hnodup : (past ++ e :: rest).Nodup := by
        rw [← hsplit]
        exact sorted_edges_nodup P
      have he_not_past : e ∉ past := by
        intro hc
        obtain ⟨-, h2⟩ := List.nodup_append.mp hnodup
        exact h2.2 hc (List.mem_cons_self e rest)
      have hsorted : List.Pairwise (sort_le P) (past ++ e :: rest) := by
        rw [← hsplit]
        exact sorted_edges_sorted P
      have hpast_le : ∀ a ∈ past, sort_le P a e := by
        intro a ha
        exact (List.pairwise_append.mp hsorted).2.2 a ha e (List.mem_cons_self e rest)
      have hnext_ne : P.nextP e ≠ e := by
        intro hc
        exact H1 e he_pids (by rw [hc])
      have hprev_pids : P.prevP e ∈ P.pointIds := prevP_mem P he_pids
      have hprev_pos_ne : P.posOf (P.prevP e) ≠ P.posOf e := by
        have := H1 (P.prevP e) hprev_pids
        rwa [nextP_prevP P he_pids] at this
      intro x
      rw [decomp_step_sweep_mem P st st₂ e hstep x, hinv x]
      by_cases hxe : x = e
      · subst hxe
        constructor
        · rintro (⟨⟨hxp, -, -⟩, -⟩ | ⟨hins, -⟩)
          · exact absurd hxp he_not_past
          · refine ⟨List.mem_append_right _ (List.mem_singleton_self x), hins, ?_⟩
            rintro hmem
            rcases List.mem_append.mp hmem with hnp | hne
            · have hle := hpast_le _ hnp
              rw [sort_le_iff_not_below] at hle
              have hxb : is_below (P.posOf x) (P.posOf (P.nextP x)) = false := by
                unfold insb at hins
                simpa using hins
              have := is_below_false_of_ne _ _ (H1 x he_pids) hxb
              rw [this] at hle
              exact absurd hle (by simp)
            · exact hnext_ne (List.mem_singleton.mp hne)
        · rintro ⟨-, hins, -⟩
          exact Or.inr ⟨hins, rfl⟩
      · by_cases hxprev : x = P.prevP e
        · have hnx : P.nextP x = e := by
            rw [hxprev, nextP_prevP P he_pids]
          constructor
          · rintro (⟨⟨hxp, hxi, -⟩, himp⟩ | ⟨-, hxe'⟩)
            · cases hbp : is_below (P.posOf e) (P.posOf (P.prevP e)) with
              | true => exact absurd (himp hbp) (by simp [hxprev])
              | false =>
                have hrev := is_below_false_of_ne _ _ (Ne.symm hprev_pos_ne) hbp
                have : insb P x = false := by
                  unfold insb
                  rw [hxprev] at hnx ⊢
                  rw [hnx, hrev]
                  rfl
                rw [hxprev] at hxi
                rw [hxprev] at this
                exact absurd hxi (by simp [this])
            · exact absurd hxe' hxe
          · rintro ⟨-, -, hnot⟩
            exact absurd (List.mem_append_right _ (by simp [hnx])) hnot
        · constructor
          · rintro (⟨⟨hxp, hxi, hxn⟩, -⟩ | ⟨-, hxe'⟩)
            · refine ⟨List.mem_append_left _ hxp, hxi, ?_⟩
              intro hmem
              rcases List.mem_append.mp hmem with hnp | hne
              · exact hxn hnp
              · have hx_pids := hpast_pids x hxp
                have : x = P.prevP e := by
                  rw [← List.mem_singleton.mp hne, prevP_nextP P hx_pids]
                exact hxprev this
            · exact absurd hxe' hxe
          · rintro ⟨hxp', hxi, hxn'⟩
            rcases List.mem_append.mp hxp' with hxp | hxe'
            · refine Or.inl ⟨⟨hxp, hxi, ?_⟩, fun _ => hxprev⟩
              intro hc
              exact hxn' (List.mem_append_left _ hc)
            · exact absurd (List.mem_singleton.mp hxe') hxe

/-! ### Claim C7: `is_below` and its order structure -/

/-- C7.  `is_below(a, b)` is true iff `a.y > b.y`, or `a.y == b.y` and
`a.x > b.x`; the relation is a strict total order: for all `a`, `b`
exactly one of `is_below a b`, `is_below b a`, or coordinate-equality
holds, and the relation is transitive. -/
theorem is_below_strict_total_order :
    (∀ a b : Vec2, is_below a b = true ↔ (a.y > b.y ∨ (a.y = b.y ∧ a.x > b.x))) ∧
    (∀ a b : Vec2,
      (is_below a b = true ∧ is_below b a = false ∧ a ≠ b) ∨
      (is_below a b = false ∧ is_below b a = true ∧ a ≠ b) ∨
      (is_below a b = false ∧ is_below b a = false ∧ a = b)) ∧
    (∀ a b c : Vec2, is_below a b = true → is_below b c = true →
      is_below a c = true) := by
  have hiff : ∀ a b : Vec2, is_below a b = true ↔
      (a.y > b.y ∨ (a.y = b.y ∧ a.x > b.x)) := is_below_iff
  have hfalse : ∀ a b : Vec2, is_below a b = false ↔
      (a.y < b.y ∨ (a.y = b.y ∧ a.x ≤ b.x)) := is_below_eq_false_iff
  refine ⟨hiff, ?_, ?_⟩
  · intro a b
    rcases lt_trichotomy a.y b.y with hy | hy | hy
    · refine Or.inr (Or.inl ?_)
      refine ⟨(hfalse a b).mpr (Or.inl hy), (hiff b a).mpr (Or.inl hy), ?_⟩
      intro h
      exact absurd (congrArg Vec2.y h) (ne_of_lt hy)
    · rcases lt_trichotomy a.x b.x with hx | hx | hx
      · refine Or.inr (Or.inl ?_)
        refine ⟨(hfalse a b).mpr (Or.inr ⟨hy, le_of_lt hx⟩),
                (hiff b a).mpr (Or.inr ⟨hy.symm, hx⟩), ?_⟩
        intro h
        exact absurd (congrArg Vec2.x h) (ne_of_lt hx)
      · refine Or.inr (Or.inr ?_)
        refine ⟨(hfalse a b).mpr (Or.inr ⟨hy, le_of_eq hx⟩),
                (hfalse b a).mpr (Or.inr ⟨hy.symm, le_of_eq hx.symm⟩), ?_⟩
        cases a
        cases b
        simp_all
      · refine Or.inl ?_
        refine ⟨(hiff a b).mpr (Or.inr ⟨hy, hx⟩),
                (hfalse b a).mpr (Or.inr ⟨hy.symm, le_of_lt hx⟩), ?_⟩
        intro h
        exact absurd (congrArg Vec2.x h) (ne_of_gt hx)
    · refine Or.inl ?_
      refine ⟨(hiff a b).mpr (Or.inl hy), (hfalse b a).mpr (Or.inl hy), ?_⟩
      intro h
      exact absurd (congrArg Vec2.y h) (ne_of_gt hy)
  · intro a b c hab hbc
    rw [hiff] at hab hbc ⊢
    rcases hab with h1 | ⟨h1, h1x⟩ <;> rcases hbc with h2 | ⟨h2, h2x⟩
    · exact Or.inl (lt_trans h2 h1)
    · exact Or.inl (h2 ▸ h1)
    · exact Or.inl (h1 ▸ h2)
    · exact Or.inr ⟨h1.trans h2, lt_trans h2x h1x⟩

/-- Witness for C7: the theorem applied at concrete points, including one
use of transitivity with its hypotheses discharged by evaluation. -/
theorem is_below_strict_total_order_witness :
    is_below ⟨0, 3⟩ ⟨1, 1⟩ = true :=
  is_below_strict_total_order.2.2 ⟨0, 3⟩ ⟨5, 2⟩ ⟨1, 1⟩ (by norm_num [is_below])
    (by norm_num [is_below])

/-! ### Claim C6: `intersect_segment_with_horizontal` is total -/

/-- C6.  `intersect_segment_with_horizontal` is total: when `a.y = b.y`
it returns `max a.x b.x` without dividing; otherwise the divisor
`b.y - a.y` is nonzero and the result is the interpolation formula. -/
theorem intersect_segment_with_horizontal_total (a b : Vec2) (y : ℚ) :
    (a.y = b.y → intersect_segment_with_horizontal a b y = max a.x b.x) ∧
    (a.y ≠ b.y → b.y - a.y ≠ 0 ∧
      intersect_segment_with_horizontal a b y =
        a.x + (y - a.y) * (b.x - a.x) / (b.y - a.y)) := by
  constructor
  · intro h
    simp [intersect_segment_with_horizontal, h]
  · intro h
    have hne : b.y - a.y ≠ 0 := sub_ne_zero.mpr (Ne.symm h)
    refine ⟨hne, ?_⟩
    simp [intersect_segment_with_horizontal, hne]

/-- Witness for C6: both cases of the theorem at concrete inputs. -/
theorem intersect_segment_with_horizontal_total_witness :
    intersect_segment_with_horizontal ⟨1, 2⟩ ⟨5, 2⟩ 2 = 5 ∧
    intersect_segment_with_horizontal ⟨0, 0⟩ ⟨2, 2⟩ 1 = 0 + (1 - 0) * (2 - 0) / (2 - 0) := by
  constructor
  · rw [(intersect_segment_with_horizontal_total ⟨1, 2⟩ ⟨5, 2⟩ 2).1 rfl]
    norm_num
  · exact ((intersect_segment_with_horizontal_total ⟨0, 0⟩ ⟨2, 2⟩ 1).2 (by norm_num)).2

/-! ### Claim C3: the vertex classification table -/

/-- Modelled from the spec: for nonzero vectors the directed angle lies in
the open interval `(0, π)` iff `sin θ > 0`, i.e. iff `cross2 a b > 0`.
This is the claim's condition `0 < θ < π`. -/
def angle_in_open_zero_pi (a b : Vec2) : Bool := 0 < cross2 a b

/-- The classification table exactly as the claim states it: Merge/End
when `curr` is below both neighbours, Split/Start when above both (not
below either), and the Left/Right rules otherwise, with `0 < θ < π`
rendered by `angle_in_open_zero_pi` on `(prev - curr, next - curr)`. -/
def classify_vertex_spec (prev curr next : Vec2) : VertexType :=
  let u := vec2_sub prev curr
  let v := vec2_sub next curr
  if is_below curr prev && is_below curr next then
    if angle_in_open_zero_pi u v then VertexType.Merge else VertexType.End
  else if !is_below curr prev && !is_below curr next then
    if angle_in_open_zero_pi u v then VertexType.Split else VertexType.Start
  else if prev.y = next.y then
    if prev.x < next.x then VertexType.Right else VertexType.Left
  else if prev.y < next.y then VertexType.Right
  else VertexType.Left

/-- The source condition `θ < π ∧ θ ≠ 0` agrees with the claim's
`0 < θ < π` in the exact-sign model: both reduce to `cross2 u v > 0`. -/
theorem angle_cond_eq_open_zero_pi (u v : Vec2) :
    (angle_lt_pi u v && angle_ne_zero u v) = angle_in_open_zero_pi u v := by
  simp only [angle_lt_pi, angle_ne_zero, angle_in_open_zero_pi]
  by_cases hc : cross2 u v = 0
  · simp [hc]
  · by_cases hlt : 0 < cross2 u v
    · simp [hc, hlt]
    · simp [hc, hlt]

/-- C3.  `get_vertex_type` agrees with the claim's table everywhere, and
when the directed angle is zero (same-direction vectors: `cross2 = 0` and
`dot2 > 0` in the model) the result is never Split or Merge. -/
theorem get_vertex_type_spec :
    (∀ prev curr next : Vec2,
      get_vertex_type prev curr next = classify_vertex_spec prev curr next) ∧
    (∀ prev curr next : Vec2,
      cross2 (vec2_sub prev curr) (vec2_sub next curr) = 0 →
      0 < dot2 (vec2_sub prev curr) (vec2_sub next curr) →
      get_vertex_type prev curr next ≠ VertexType.Split ∧
      get_vertex_type prev curr next ≠ VertexType.Merge) := by
  have hagree : ∀ prev curr next : Vec2,
      get_vertex_type prev curr next = classify_vertex_spec prev curr next := by
    intro prev curr next
    simp only [get_vertex_type, classify_vertex_spec, angle_cond_eq_open_zero_pi]
  refine ⟨hagree, ?_⟩
  intro prev curr next hc hd
  have hzero : angle_in_open_zero_pi (vec2_sub prev curr) (vec2_sub next curr) = false := by
    simp [angle_in_open_zero_pi, hc]
  rw [hagree]
  unfold classify_vertex_spec
  simp only [hzero]
  by_cases h1 : (is_below curr prev && is_below curr next) = true
  · simp [h1]
  · simp only [Bool.not_eq_true] at h1
    simp only [h1, Bool.false_eq_true, if_false]
    by_cases h2 : (!is_below curr prev && !is_below curr next) = true
    · simp [h2]
    · simp only [h2, Bool.false_eq_true, if_false]
      by_cases h3 : prev.y = next.y
      · simp only [h3, if_true]
        by_cases h4 : prev.x < next.x <;> simp [h4]
      · simp only [h3, if_false]
        by_cases h4 : prev.y < next.y <;> simp [h4]

/-- Witness for C3: the zero-angle clause applied at concrete collinear
points (a spur), showing the result is Start, not Split. -/
theorem get_vertex_type_spec_witness :
    get_vertex_type ⟨2, 2⟩ ⟨0, 0⟩ ⟨1, 1⟩ ≠ VertexType.Split ∧
    get_vertex_type ⟨2, 2⟩ ⟨0, 0⟩ ⟨1, 1⟩ ≠ VertexType.Merge :=
  get_vertex_type_spec.2 ⟨2, 2⟩ ⟨0, 0⟩ ⟨1, 1⟩ (by norm_num [cross2, vec2_sub])
    (by norm_num [dot2, vec2_sub])

/-! ### Claim C2: the dispatch table of the decomposition loop -/

/-- The claim's Split action, transcribed from its words: locate the edge
`ej` immediately right of `p`, add the diagonal `(p, helper[ej].point)`
unconditionally, set `helper[ej] := (p, Split)`, insert `p` into the
sweep state, and set `helper[p] := (p, Split)`.  Locating `ej` or the
missing helper entry aborts (`none`), as in the source. -/
def split_action_spec (P : CPolygon) (st : DecompState) (e : CPointId) :
    Option DecompState :=
  match find_right_of_current_vertex P (P.posOf e) st.sweep with
  | none => none
  | some ej =>
    match hget st.helper ej with
    | none => none
    | some hv =>
        some { sweep := sweep_add P (P.posOf e) st.sweep e,
               helper := hinsert (hinsert st.helper ej (e, VertexType.Split))
                           e (e, VertexType.Split),
               diagonals := st.diagonals ++ [(e, hv.1)] }

/-- The claim's Merge action, transcribed from its words: add a diagonal
to `helper[prev].point` only if that helper's type is Merge; remove
`prev` from the sweep state; locate `ej` right of `p`; add a diagonal to
`helper[ej].point` only if that helper's type is Merge; set
`helper[ej] := (p, Merge)`. -/
def merge_action_spec (P : CPolygon) (st : DecompState) (e : CPointId) :
    Option DecompState :=
  let prev := P.prevP e
  let d1 := match hget st.helper prev with
    | some (h, VertexType.Merge) => st.diagonals ++ [(h, e)]
    | _ => st.diagonals
  let sweep1 := sweep_remove st.sweep prev
  match find_right_of_current_vertex P (P.posOf e) sweep1 with
  | none => none
  | some ej =>
      let d2 := match hget st.helper ej with
        | some (h, VertexType.Merge) => d1 ++ [(h, e)]
        | _ => d1
      some { sweep := sweep1,
             helper := hinsert st.helper ej (e, VertexType.Merge),
             diagonals := d2 }

/-- The claim's Start action, transcribed from the table row: insert `p`
into the sweep state; `helper[p] := (p, Start)`. -/
def start_action_spec (P : CPolygon) (st : DecompState) (e : CPointId) :
    Option DecompState :=
  some { sweep := sweep_add P (P.posOf e) st.sweep e,
         helper := hinsert st.helper e (e, VertexType.Start),
         diagonals := st.diagonals }

/-- The claim's End action, transcribed from the table row: if
`helper[prev].type == Merge`, add the diagonal `(helper[prev].point, p)`;
remove `prev` from the sweep state. -/
def end_action_spec (P : CPolygon) (st : DecompState) (e : CPointId) :
    Option DecompState :=
  let prev := P.prevP e
  let d1 := match hget st.helper prev with
    | some (h, VertexType.Merge) => st.diagonals ++ [(h, e)]
    | _ => st.diagonals
  some { sweep := sweep_remove st.sweep prev,
         helper := st.helper,
         diagonals := d1 }

/-- The claim's Right action, transcribed from the table row: if
`helper[prev].type == Merge`, add the diagonal `(helper[prev].point, p)`;
forget `helper[prev]`; remove `prev`; insert `p`;
`helper[p] := (p, Right)`. -/
def right_action_spec (P : CPolygon) (st : DecompState) (e : CPointId) :
    Option DecompState :=
  let prev := P.prevP e
  let d1 := match hget st.helper prev with
    | some (h, VertexType.Merge) => st.diagonals ++ [(h, e)]
    | _ => st.diagonals
  let helper1 := hremove st.helper prev
  let sweep1 := sweep_remove st.sweep prev
  some { sweep := sweep_add P (P.posOf e) sweep1 e,
         helper := hinsert helper1 e (e, VertexType.Right),
         diagonals := d1 }

/-- The claim's Left action, transcribed from the table row: locate `ej`
right of `p`; if `helper[ej].type == Merge`, add the diagonal
`(helper[ej].point, p)`; `helper[ej] := (p, Left)`.  Failure to locate
`ej` aborts (`none`), as in the source. -/
def left_action_spec (P : CPolygon) (st : DecompState) (e : CPointId) :
    Option DecompState :=
  match find_right_of_current_vertex P (P.posOf e) st.sweep with
  | none => none
  | some ej =>
      let d1 := match hget st.helper ej with
        | some (h, VertexType.Merge) => st.diagonals ++ [(h, e)]
        | _ => st.diagonals
      some { sweep := st.sweep,
             helper := hinsert st.helper ej (e, VertexType.Left),
             diagonals := d1 }

/-- C2.  For every polygon, state and dispatched point, the loop body
performs exactly the dispatch table's actions for the classified vertex
type, across all six rows. -/
theorem decomp_step_dispatch_table_spec (P : CPolygon) (st : DecompState)
    (e : CPointId) :
    decomp_step P st e =
      match get_vertex_type (P.posOf (P.prevP e)) (P.posOf e)
          (P.posOf (P.nextP e)) with
      | VertexType.Start => start_action_spec P st e
      | VertexType.End => end_action_spec P st e
      | VertexType.Split => split_action_spec P st e
      | VertexType.Merge => merge_action_spec P st e
      | VertexType.Right => right_action_spec P st e
      | VertexType.Left => left_action_spec P st e := by
  cases hvt : get_vertex_type (P.posOf (P.prevP e)) (P.posOf e)
      (P.posOf (P.nextP e)) with
  | Start => simp only [decomp_step, start_action_spec, hvt]
  | End => simp only [decomp_step, end_action_spec,
      connect_with_helper_if_merge_vertex, hvt]
  | Split =>
    simp only [decomp_step, split_action_spec, hvt]
    cases hfr : find_right_of_current_vertex P (P.posOf e) st.sweep with
    | none => rfl
    | some ej =>
      dsimp only
      cases hh : hget st.helper ej with
      | none => rfl
      | some hv => cases hv; rfl
  | Merge => simp only [decomp_step, merge_action_spec,
      connect_with_helper_if_merge_vertex, hvt]
  | Right => simp only [decomp_step, right_action_spec,
      connect_with_helper_if_merge_vertex, hvt]
  | Left =>
    simp only [decomp_step, left_action_spec,
      connect_with_helper_if_merge_vertex, hvt]

/-! ### Claim C8: the decomposer never returns an `Err` -/

/-- Every `some` result of the dispatch loop carries the state through;
the loop itself cannot manufacture an error value. -/
theorem decomp_run_none_or_some (P : CPolygon) :
    ∀ (es : List CPointId) (st : DecompState),
      decomp_run P es st = none ∨ ∃ st', decomp_run P es st = some st' := by
  intro es
  induction es with
  | nil => intro st; exact Or.inr ⟨st, rfl⟩
  | cons e rest ih =>
    intro st
    unfold decomp_run
    cases h : decomp_step P st e with
    | none => exact Or.inl rfl
    | some st' => exact ih st'

/-- C8.  On every execution of `y_monotone_polygon_decomposition` that
returns (does not panic), the returned `Result` is `Ok(())`: the variants
`OpenPath`, `WrongWindingOrder` and `MissingFace` are never emitted.
(The winding check of lines 200–204 is a `debug_assert`, which can only
abort, never produce an `Err`.) -/
theorem y_monotone_polygon_decomposition_never_err (P : CPolygon)
    (r : Except DecompositionError Unit) (st : DecompState)
    (h : y_monotone_polygon_decomposition P = some (r, st)) :
    r = Except.ok () := by
  unfold y_monotone_polygon_decomposition at h
  cases hr : decomp_run P (sorted_edges P) ⟨[], [], []⟩ with
  | none => rw [hr] at h; exact absurd h (by simp)
  | some st' =>
      rw [hr] at h
      simp at h
      exact h.1.symm

/-- The triangle polygon used by concrete decomposition runs. -/
def triPoly : CPolygon := ⟨[[⟨-10, 5⟩, ⟨0, -5⟩, ⟨10, 5⟩]]⟩

/-- The complete concrete decomposition run on the triangle: returns
`Ok(())`, the sweep state ends empty, and the helper table is left with
the entry written by the triangle's Left vertex. -/
theorem triangle_decomposition_run :
    y_monotone_polygon_decomposition triPoly =
      some (Except.ok (), ⟨[], [((0, 1), ((0, 0), VertexType.Left))], []⟩) := by
  norm_num [y_monotone_polygon_decomposition, decomp_run, decomp_step, sorted_edges,
    CPolygon.pointIds, CPolygon.ringLen, CPolygon.posOf, CPolygon.nextP, CPolygon.prevP,
    List.insertionSort, List.orderedInsert, sort_le, sweep_le, get_vertex_type,
    is_below, angle_lt_pi, angle_ne_zero, cross2, dot2, vec2_sub,
    find_right_of_current_vertex, edge_x_at, intersect_segment_with_horizontal,
    hget, hinsert, hremove, sweep_add, sweep_remove, triPoly,
    connect_with_helper_if_merge_vertex, List.find?, List.filter, List.range, List.getD]

/-- Witness for C8: the theorem applied to the concrete run on a
triangle, whose full execution is evaluated. -/
theorem y_monotone_polygon_decomposition_never_err_witness :
    (y_monotone_polygon_decomposition triPoly =
      some (Except.ok (), ⟨[], [((0, 1), ((0, 0), VertexType.Left))], []⟩)) ∧
    (Except.ok () : Except DecompositionError Unit) = Except.ok () :=
  ⟨triangle_decomposition_run,
    y_monotone_polygon_decomposition_never_err triPoly
      (Except.ok ()) ⟨[], [((0, 1), ((0, 0), VertexType.Left))], []⟩
      triangle_decomposition_run⟩

/-! ### Claim C9: the triangulator never returns an `Err` -/

/-- C9.  On every execution of `y_monotone_triangulation` that returns,
the returned `Result` is `Ok(())`: no `TriangulationError` variant is
ever constructed by the triangulator, whatever the input. -/
theorem y_monotone_triangulation_never_err (fuel : Nat) (P : MPoly)
    (r : Except TriangulationError Unit) (out : List Tri)
    (h : y_monotone_triangulation fuel P = some (r, out)) :
    r = Except.ok () := by
  dsimp only [y_monotone_triangulation] at h
  split at h
  · exact absurd h (by simp)
  · split at h
    · exact absurd h (by simp)
    · split at h
      · exact absurd h (by simp)
      · split at h
        · exact absurd h (by simp)
        · simp only [Option.some.injEq, Prod.mk.injEq] at h
          exact h.1.symm

set_option maxRecDepth 40000
set_option maxHeartbeats 8000000

/-- The triangle polygon view used by concrete triangulator runs. -/
def c9Poly : MPoly := ⟨[0, 1, 2], [⟨-10, 5⟩, ⟨0, -5⟩, ⟨10, 5⟩]⟩

/-- The concrete run of the triangulator on the triangle: the three
search loops and three main-loop iterations, evaluated step by step. -/
theorem c9_triangle_run :
    y_monotone_triangulation 4 c9Poly = some (Except.ok (), [(2, 1, 0)]) := by
  have h1 : tri_step c9Poly ⟨2, Direction.Backward⟩
      ⟨⟨1, Direction.Backward⟩, ⟨2, Direction.Forward⟩, ⟨1, Direction.Backward⟩, [], [], 0⟩ =
      Sum.inr ⟨⟨0, Direction.Backward⟩, ⟨2, Direction.Forward⟩, ⟨1, Direction.Backward⟩,
        [⟨1, Direction.Backward⟩], [], 1⟩ := by
    simp only [tri_step, cnext, cprev, cvertex, MPoly.advance, MPoly.n, MPoly.posAt,
      MPoly.posOfVid, MPoly.vidOf, c9Poly, Direction.reverse, is_below, List.getD]
    norm_num
  have h2 : tri_step c9Poly ⟨2, Direction.Backward⟩
      ⟨⟨0, Direction.Backward⟩, ⟨2, Direction.Forward⟩, ⟨1, Direction.Backward⟩,
        [⟨1, Direction.Backward⟩], [], 1⟩ =
      Sum.inr ⟨⟨2, Direction.Backward⟩, ⟨2, Direction.Forward⟩, ⟨0, Direction.Backward⟩,
        [⟨1, Direction.Backward⟩, ⟨0, Direction.Backward⟩], [], 2⟩ := by
    simp only [tri_step, cnext, cprev, cvertex, MPoly.advance, MPoly.n, MPoly.posAt,
      MPoly.posOfVid, MPoly.vidOf, c9Poly, Direction.reverse, is_below, List.getD]
    norm_num
  have h3 : tri_step c9Poly ⟨2, Direction.Backward⟩
      ⟨⟨2, Direction.Backward⟩, ⟨2, Direction.Forward⟩, ⟨0, Direction.Backward⟩,
        [⟨1, Direction.Backward⟩, ⟨0, Direction.Backward⟩], [], 2⟩ =
      Sum.inl ⟨⟨2, Direction.Forward⟩, ⟨2, Direction.Backward⟩, ⟨0, Direction.Backward⟩,
        [⟨0, Direction.Backward⟩, ⟨2, Direction.Forward⟩], [(2, 1, 0)], 2⟩ := by
    simp only [tri_step, same_chain_branch, chain_switch_branch, cnext, cprev, cvertex,
      MPoly.advance, MPoly.n, MPoly.posAt, MPoly.posOfVid, MPoly.vidOf, c9Poly,
      Direction.reverse, is_below, List.getD, List.getLast?, List.getLast]
    norm_num [angle_gt_pi, cross2, vec2_sub,
      (by decide : ¬(Direction.Forward = Direction.Backward)),
      (by decide : ¬(Direction.Backward = Direction.Forward))]
  have e1 := tri_loop_cont c9Poly ⟨2, Direction.Backward⟩ 3 _ _ h1
  have e2 := tri_loop_cont c9Poly ⟨2, Direction.Backward⟩ 2 _ _ h2
  have e3 := tri_loop_done c9Poly ⟨2, Direction.Backward⟩ 1 _ _ h3
  have hloop : tri_loop c9Poly ⟨2, Direction.Backward⟩ 4
      ⟨⟨1, Direction.Backward⟩, ⟨2, Direction.Forward⟩, ⟨1, Direction.Backward⟩, [], [], 0⟩ =
      some ⟨⟨2, Direction.Forward⟩, ⟨2, Direction.Backward⟩, ⟨0, Direction.Backward⟩,
        [⟨0, Direction.Backward⟩, ⟨2, Direction.Forward⟩], [(2, 1, 0)], 2⟩ := by
    rw [show (4 : Nat) = 3 + 1 from rfl, e1, show (3 : Nat) = 2 + 1 from rfl, e2,
      show (2 : Nat) = 1 + 1 from rfl, e3]
  have hf1 : find_initial_down c9Poly ⟨0, Direction.Forward⟩ 4 ⟨0, Direction.Forward⟩ =
      some ⟨1, Direction.Forward⟩ := by
    norm_num [find_initial_down, cnext, cvertex, MPoly.advance, MPoly.n, MPoly.posAt,
      MPoly.posOfVid, MPoly.vidOf, c9Poly, List.getD]
  have hf2 : find_down_loop c9Poly ⟨1, Direction.Backward⟩ 4 ⟨1, Direction.Backward⟩
      ⟨0, -5⟩ = some ⟨2, Direction.Backward⟩ := by
    norm_num [find_down_loop, cnext, cprev, cvertex, MPoly.advance, MPoly.n, MPoly.posAt,
      MPoly.posOfVid, MPoly.vidOf, c9Poly, Direction.reverse, is_below, List.getD]
  have hf3 : find_up_loop c9Poly ⟨0, Direction.Forward⟩ 4 ⟨0, Direction.Forward⟩
      ⟨-10, 5⟩ = some ⟨1, Direction.Forward⟩ := by
    norm_num [find_up_loop, cnext, cprev, cvertex, MPoly.advance, MPoly.n, MPoly.posAt,
      MPoly.posOfVid, MPoly.vidOf, c9Poly, Direction.reverse, is_below, List.getD]
  norm_num [y_monotone_triangulation, hf1, hf2, hf3, hloop, is_below, cvertex, cnext, cprev,
    MPoly.advance, MPoly.n, MPoly.posAt, MPoly.posOfVid, MPoly.vidOf,
    (show c9Poly.pts = [0, 1, 2] from rfl),
    (show c9Poly.positions = [⟨-10, 5⟩, ⟨0, -5⟩, ⟨10, 5⟩] from rfl),
    Direction.reverse, List.getD]

/-- Witness for C9: the theorem applied to the concrete run on a
triangle, whose full execution is evaluated. -/
theorem y_monotone_triangulation_never_err_witness :
    y_monotone_triangulation 4 c9Poly = some (Except.ok (), [(2, 1, 0)]) ∧
    (Except.ok () : Except TriangulationError Unit) = Except.ok () :=
  ⟨c9_triangle_run,
    y_monotone_triangulation_never_err 4 c9Poly (Except.ok ()) [(2, 1, 0)] c9_triangle_run⟩

/-! ### Claim C4: scratch state after a decomposition call -/

/-- The triangle is a valid input: consecutive ring points are at
distinct positions. -/
theorem triPoly_consecutive_distinct :
    ∀ p ∈ triPoly.pointIds, triPoly.posOf p ≠ triPoly.posOf (triPoly.nextP p) := by
  have hids : triPoly.pointIds = [(0, 0), (0, 1), (0, 2)] := rfl
  intro p hp
  rw [hids] at hp
  fin_cases hp <;>
    norm_num [triPoly, CPolygon.posOf, CPolygon.nextP, CPolygon.ringLen, List.getD,
      Vec2.mk.injEq]

/-- Counterexample to C4 as stated: on the valid triangle input the call
returns, the sweep state is empty, but the helper table is NOT empty —
it still holds the entry written while processing the Left vertex
(`self.helper.clear()` runs at the start of the next call, line 189, not
at return). -/
theorem c4_helper_nonempty_after_return :
    (∀ p ∈ triPoly.pointIds, triPoly.posOf p ≠ triPoly.posOf (triPoly.nextP p)) ∧
    y_monotone_polygon_decomposition triPoly =
      some (Except.ok (), ⟨[], [((0, 1), ((0, 0), VertexType.Left))], []⟩) ∧
    ([((0, 1), ((0, 0), VertexType.Left))] : Helper) ≠ [] :=
  ⟨triPoly_consecutive_distinct, triangle_decomposition_run, by simp⟩

/-- C4 (amended).  After `y_monotone_polygon_decomposition` returns on a
valid input (consecutive ring points at distinct positions), the
sweep-state sequence is empty; the helper table is cleared at the start
of the next call rather than at return, so no emptiness is claimed for
it. -/
theorem sweep_state_empty_after_decomposition (P : CPolygon)
    (H1 : ∀ p ∈ P.pointIds, P.posOf p ≠ P.posOf (P.nextP p))
    (r : Except DecompositionError Unit) (st : DecompState)
    (h : y_monotone_polygon_decomposition P = some (r, st)) :
    st.sweep = [] := by
  unfold y_monotone_polygon_decomposition at h
  cases hr : decomp_run P (sorted_edges P) ⟨[], [], []⟩ with
  | none => rw [hr] at h; exact absurd h (by simp)
  | some stF =>
    rw [hr] at h
    simp only [Option.some.injEq, Prod.mk.injEq] at h
    have hinv := decomp_run_inv P H1 (sorted_edges P) [] ⟨[], [], []⟩ stF rfl
      (by intro x; simp) hr
    have hempty : ∀ x, x ∉ stF.sweep := by
      intro x hx
      obtain ⟨hx1, _, hx3⟩ := (hinv x).mp hx
      exact hx3 ((mem_sorted_edges P).mpr (nextP_mem P ((mem_sorted_edges P).mp hx1)))
    rw [← h.2]
    exact List.eq_nil_iff_forall_not_mem.mpr hempty

/-- Witness for the amended C4: the theorem applied to the triangle run. -/
theorem sweep_state_empty_after_decomposition_witness :
    (⟨[], [((0, 1), ((0, 0), VertexType.Left))], []⟩ : DecompState).sweep = [] :=
  sweep_state_empty_after_decomposition triPoly triPoly_consecutive_distinct
    (Except.ok ()) ⟨[], [((0, 1), ((0, 0), VertexType.Left))], []⟩
    triangle_decomposition_run

/-! ### Claim C10: termination of the two core operations -/

/-- `q` lies on the closed segment from `a` to `b` (collinear and inside
the bounding box). -/
def seg_contains (a b q : Vec2) : Prop :=
  cross2 (vec2_sub b a) (vec2_sub q a) = 0 ∧
  min a.x b.x ≤ q.x ∧ q.x ≤ max a.x b.x ∧
  min a.y b.y ≤ q.y ∧ q.y ≤ max a.y b.y

instance seg_contains_dec (a b q : Vec2) : Decidable (seg_contains a b q) := by
  unfold seg_contains
  infer_instance

/-- Segments `p1p2` and `p3p4` share at least one point: either they
cross properly (strictly opposite orientations both ways) or one
segment contains an endpoint of the other. -/
def segs_intersect (p1 p2 p3 p4 : Vec2) : Prop :=
  (((0 < cross2 (vec2_sub p4 p3) (vec2_sub p1 p3) ∧
      cross2 (vec2_sub p4 p3) (vec2_sub p2 p3) < 0) ∨
    (cross2 (vec2_sub p4 p3) (vec2_sub p1 p3) < 0 ∧
      0 < cross2 (vec2_sub p4 p3) (vec2_sub p2 p3))) ∧
   ((0 < cross2 (vec2_sub p2 p1) (vec2_sub p3 p1) ∧
      cross2 (vec2_sub p2 p1) (vec2_sub p4 p1) < 0) ∨
    (cross2 (vec2_sub p2 p1) (vec2_sub p3 p1) < 0 ∧
      0 < cross2 (vec2_sub p2 p1) (vec2_sub p4 p1)))) ∨
  seg_contains p1 p2 p3 ∨ seg_contains p1 p2 p4 ∨
  seg_contains p3 p4 p1 ∨ seg_contains p3 p4 p2

instance segs_intersect_dec (p1 p2 p3 p4 : Vec2) :
    Decidable (segs_intersect p1 p2 p3 p4) := by
  unfold segs_intersect
  infer_instance

/-- Position of ring point `i` in a position ring. -/
def rpos (ps : List Vec2) (i : Nat) : Vec2 := ps.getD (i % ps.length) ⟨0, 0⟩

/-- A closed ring of positions is simple: all vertices distinct, adjacent
edges share exactly their common endpoint, and non-adjacent edges are
disjoint. -/
def ring_simple (ps : List Vec2) : Prop :=
  (∀ i < ps.length, ∀ j < ps.length, i ≠ j → rpos ps i ≠ rpos ps j) ∧
  (∀ i < ps.length, ∀ j < ps.length, i < j →
    (if j = i + 1 then
      (¬ seg_contains (rpos ps j) (rpos ps (j + 1)) (rpos ps i) ∧
       ¬ seg_contains (rpos ps i) (rpos ps j) (rpos ps (j + 1)))
    else if i = 0 ∧ j = ps.length - 1 then
      (¬ seg_contains (rpos ps i) (rpos ps (i + 1)) (rpos ps j) ∧
       ¬ seg_contains (rpos ps j) (rpos ps (j + 1)) (rpos ps (i + 1)))
    else
      ¬ segs_intersect (rpos ps i) (rpos ps (i + 1)) (rpos ps j) (rpos ps (j + 1))))

/-- The spec glossary's definition of a y-monotone polygon, made exact:
the ring splits at two points `i ≠ j` into a chain with weakly
non-decreasing y (walking forward from `i` to `j`) and a chain with
weakly non-increasing y (from `j` back to `i`). -/
def glossary_y_monotone (ps : List Vec2) : Prop :=
  ∃ i < ps.length, ∃ j < ps.length, i ≠ j ∧
    (∀ t < (j + ps.length - i) % ps.length,
      (rpos ps (i + t)).y ≤ (rpos ps (i + t + 1)).y) ∧
    (∀ t < (i + ps.length - j) % ps.length,
      (rpos ps (j + t + 1)).y ≤ (rpos ps (j + t)).y)

/-- The ring of positions of a polygon view. -/
def ring_positions (P : MPoly) : List Vec2 := P.pts.map P.posOfVid

/-- The simple polygon with weakly-y-monotone chains on which the
triangulator's main loop never reaches its exit condition. -/
def P10 : MPoly := ⟨[0, 1, 2, 3, 4, 5],
  [⟨0, 0⟩, ⟨4, 1⟩, ⟨3, 1⟩, ⟨2, 2⟩, ⟨0, 3⟩, ⟨-1, 1⟩]⟩

/-- Its `down` circulator, as found by the second search loop (which
stops at the local order-minimum `(4,1)` because the following vertex of
the horizontal run lies left of it). -/
def down10 : Circulator := ⟨1, Direction.Forward⟩

/-- A non-breaking, non-swapping iteration advances `m` one step. -/
theorem tri_step_noswap (P : MPoly) (down : Circulator) (st : TriState)
    (hc : (is_below (cvertex P st.m) (cvertex P st.o) || decide (st.m = down)) = false)
    (hbreak : ¬(st.m.point = down.point ∧ st.o.point = down.point)) :
    ∃ stk out, tri_step P down st =
      Sum.inr ⟨cnext P st.m, st.o, st.m, stk, out, st.i + 1⟩ := by
  unfold tri_step
  simp only [hc, Bool.false_eq_true, if_false, if_neg hbreak]
  exact ⟨_, _, rfl⟩

/-- A non-breaking, swapping iteration advances the other walker. -/
theorem tri_step_swap (P : MPoly) (down : Circulator) (st : TriState)
    (hc : (is_below (cvertex P st.m) (cvertex P st.o) || decide (st.m = down)) = true)
    (hbreak : ¬(st.o.point = down.point ∧ st.m.point = down.point)) :
    ∃ stk out, tri_step P down st =
      Sum.inr ⟨cnext P st.o, st.m, st.o, stk, out, st.i + 1⟩ := by
  unfold tri_step
  simp only [hc, if_true, if_neg hbreak]
  exact ⟨_, _, rfl⟩

/-- The control pairs (m, o) visited forever by the main loop on `P10`. -/
def S10 : List (Circulator × Circulator) :=
  [(⟨0, Direction.Backward⟩, ⟨1, Direction.Forward⟩),
   (⟨5, Direction.Backward⟩, ⟨1, Direction.Forward⟩),
   (⟨4, Direction.Backward⟩, ⟨1, Direction.Forward⟩),
   (⟨2, Direction.Forward⟩, ⟨4, Direction.Backward⟩),
   (⟨3, Direction.Forward⟩, ⟨4, Direction.Backward⟩),
   (⟨4, Direction.Forward⟩, ⟨4, Direction.Backward⟩),
   (⟨5, Direction.Forward⟩, ⟨4, Direction.Backward⟩),
   (⟨0, Direction.Forward⟩, ⟨4, Direction.Backward⟩),
   (⟨1, Direction.Forward⟩, ⟨4, Direction.Backward⟩),
   (⟨3, Direction.Backward⟩, ⟨1, Direction.Forward⟩),
   (⟨2, Direction.Forward⟩, ⟨3, Direction.Backward⟩),
   (⟨3, Direction.Forward⟩, ⟨3, Direction.Backward⟩),
   (⟨4, Direction.Forward⟩, ⟨3, Direction.Backward⟩),
   (⟨2, Direction.Backward⟩, ⟨4, Direction.Forward⟩),
   (⟨1, Direction.Backward⟩, ⟨4, Direction.Forward⟩),
   (⟨0, Direction.Backward⟩, ⟨4, Direction.Forward⟩),
   (⟨5, Direction.Backward⟩, ⟨4, Direction.Forward⟩),
   (⟨4, Direction.Backward⟩, ⟨4, Direction.Forward⟩),
   (⟨3, Direction.Backward⟩, ⟨4, Direction.Forward⟩)]

/-- On `P10`, from any control pair in `S10` the main loop never breaks:
every iteration is a non-breaking step whose successor control pair is
again in `S10`, so the loop consumes all its fuel and returns `none`. -/
theorem P10_loop_none : ∀ fuel st, (st.m, st.o) ∈ S10 →
    tri_loop P10 down10 fuel st = none := by
  intro fuel
  induction fuel with
  | zero => intro st _; rfl
  | succ n ih =>
    intro st hmem
    simp only [S10, List.mem_cons, List.not_mem_nil, or_false] at hmem
    rcases hmem with h | h | h | h | h | h | h | h | h | h | h | h | h | h | h | h | h | h | h
    all_goals (rw [Prod.mk.injEq] at h; obtain ⟨hm, ho⟩ := h)
    all_goals first
    | (have hc : (is_below (cvertex P10 st.m) (cvertex P10 st.o) ||
          decide (st.m = down10)) = false := by
        rw [hm, ho]
        simp only [cvertex, MPoly.posAt, MPoly.posOfVid, MPoly.vidOf, P10, down10,
          List.getD, is_below]
        norm_num [(by decide : ¬(Direction.Backward = Direction.Forward)),
          (by decide : ¬(Direction.Forward = Direction.Backward))]
       have hbr : ¬(st.m.point = down10.point ∧ st.o.point = down10.point) := by
        rw [hm, ho]; decide
       obtain ⟨stk, out, hstep⟩ := tri_step_noswap P10 down10 st hc hbr
       rw [tri_loop_cont P10 down10 n st _ hstep]
       exact ih _ (by show (cnext P10 st.m, st.o) ∈ S10; rw [hm, ho]; decide))
    | (have hc : (is_below (cvertex P10 st.m) (cvertex P10 st.o) ||
          decide (st.m = down10)) = true := by
        rw [hm, ho]
        simp only [cvertex, MPoly.posAt, MPoly.posOfVid, MPoly.vidOf, P10, down10,
          List.getD, is_below]
        norm_num [(by decide : ¬(Direction.Backward = Direction.Forward)),
          (by decide : ¬(Direction.Forward = Direction.Backward))]
       have hbr : ¬(st.o.point = down10.point ∧ st.m.point = down10.point) := by
        rw [hm, ho]; decide
       obtain ⟨stk, out, hstep⟩ := tri_step_swap P10 down10 st hc hbr
       rw [tri_loop_cont P10 down10 n st _ hstep]
       exact ih _ (by show (cnext P10 st.o, st.m) ∈ S10; rw [hm, ho]; decide))

/-- On `P10` the first search loop exits on its first iteration (the y of
vertex 1 differs from the y of vertex 0), for every positive fuel. -/
theorem find_initial_down_P10 (fuel : Nat) :
    find_initial_down P10 ⟨0, Direction.Forward⟩ (fuel + 1) ⟨0, Direction.Forward⟩ =
      some ⟨1, Direction.Forward⟩ := by
  simp only [find_initial_down, cnext, cvertex, MPoly.advance, MPoly.n, MPoly.posAt,
    MPoly.posOfVid, MPoly.vidOf, P10, List.getD]
  norm_num

/-- On `P10` the second search loop stops immediately at the horizontal
run: vertex 2 lies left of vertex 1, so `down` stays at ring point 1 even
though the bottom-most vertex is ring point 4.  Holds for every positive
fuel. -/
theorem find_down_loop_P10 (fuel : Nat) :
    find_down_loop P10 ⟨1, Direction.Forward⟩ (fuel + 1) ⟨1, Direction.Forward⟩
      (cvertex P10 ⟨1, Direction.Forward⟩) = some ⟨1, Direction.Forward⟩ := by
  simp only [find_down_loop, cnext, cprev, Direction.reverse, cvertex, MPoly.advance,
    MPoly.n, MPoly.posAt, MPoly.posOfVid, MPoly.vidOf, P10, List.getD, is_below]
  norm_num

/-- On `P10` the third search loop exits on its first iteration: vertex 5
lies below vertex 0, so `up` stays at ring point 0.  Holds for every
positive fuel. -/
theorem find_up_loop_P10 (fuel : Nat) :
    find_up_loop P10 ⟨0, Direction.Backward⟩ (fuel + 1) ⟨0, Direction.Backward⟩
      (cvertex P10 ⟨0, Direction.Backward⟩) = some ⟨0, Direction.Backward⟩ := by
  simp only [find_up_loop, cnext, cprev, Direction.reverse, cvertex, MPoly.advance,
    MPoly.n, MPoly.posAt, MPoly.posOfVid, MPoly.vidOf, P10, List.getD, is_below]
  norm_num

/-- For every fuel bound, the triangulator on `P10` exhausts its fuel:
the embedded unbounded main loop never terminates. -/
theorem P10_all_fuel_none (fuel : Nat) :
    y_monotone_triangulation fuel P10 = none := by
  cases fuel with
  | zero => rfl
  | succ n =>
    have hib1 : is_below (cvertex P10 ⟨0, Direction.Forward⟩)
        (cvertex P10 ⟨1, Direction.Forward⟩) = false := by
      simp only [cvertex, MPoly.posAt, MPoly.posOfVid, MPoly.vidOf, P10, List.getD,
        is_below]
      norm_num
    have hib2 : is_below (cvertex P10 ⟨1, Direction.Forward⟩)
        (cvertex P10 ⟨5, Direction.Backward⟩) = true := by
      simp only [cvertex, MPoly.posAt, MPoly.posOfVid, MPoly.vidOf, P10, List.getD,
        is_below]
      norm_num
    have hc1 : cnext P10 ⟨0, Direction.Forward⟩ = ⟨1, Direction.Forward⟩ := rfl
    have hc2 : cnext P10 ⟨0, Direction.Backward⟩ = ⟨5, Direction.Backward⟩ := rfl
    have hc3 : cprev P10 ⟨5, Direction.Backward⟩ = ⟨0, Direction.Backward⟩ := rfl
    have hmem : ((⟨0, Direction.Backward⟩ : Circulator),
        (⟨1, Direction.Forward⟩ : Circulator)) ∈ S10 := by decide
    have hloop := P10_loop_none (n + 1)
      ⟨⟨0, Direction.Backward⟩, ⟨1, Direction.Forward⟩, ⟨0, Direction.Backward⟩,
        [], [], 0⟩ hmem
    simp only [down10] at hloop
    simp only [y_monotone_triangulation, find_initial_down_P10 n, hib1,
      Bool.false_eq_true, if_false, Direction.reverse, find_down_loop_P10 n,
      find_up_loop_P10 n, hc1, hc2, hib2, if_true, hc3, hloop]

/-- The position ring of `P10`, written out. -/
theorem ring_positions_P10 : ring_positions P10 =
    [⟨0, 0⟩, ⟨4, 1⟩, ⟨3, 1⟩, ⟨2, 2⟩, ⟨0, 3⟩, ⟨-1, 1⟩] := rfl

/-- `P10` satisfies the glossary's y-monotonicity: the chain from ring
point 0 to ring point 4 is weakly non-decreasing in y, and the chain back
from 4 to 0 is weakly non-increasing. -/
theorem P10_glossary_monotone : glossary_y_monotone (ring_positions P10) := by
  rw [ring_positions_P10]
  refine ⟨0, by norm_num, 4, by norm_num, by norm_num, ?_, ?_⟩
  · intro t ht
    norm_num at ht
    interval_cases t <;>
      norm_num [rpos, List.getD]
  · intro t ht
    norm_num at ht
    interval_cases t <;>
      norm_num [rpos, List.getD]

/-- `P10` is a simple polygon: vertices pairwise distinct, adjacent edges
meet only at their shared endpoint, non-adjacent edges are disjoint. -/
theorem P10_ring_simple : ring_simple (ring_positions P10) := by
  rw [ring_positions_P10]
  constructor
  · intro i hi j hj hij
    norm_num at hi hj
    interval_cases i <;> interval_cases j <;>
      simp_all [rpos, List.getD, Vec2.mk.injEq] <;> norm_num
  · intro i hi j hj hij
    norm_num at hi hj
    interval_cases i <;> interval_cases j <;>
      norm_num [rpos, List.getD, seg_contains, segs_intersect, cross2, vec2_sub,
        min_def, max_def]

/-- Claim C10: "Both core operations terminate: ... y_monotone_triangulation
terminates on every y-monotone simple polygon ...".  Refuted for the
triangulator: `P10` is a simple polygon that is y-monotone in the spec
glossary's sense (two chains, each weakly monotone in y) with more than
two vertices, yet the triangulator's unbounded main loop never reaches
its exit condition on it — for every fuel bound the fueled embedding
returns `none`.  (The second search loop stops at the leftward horizontal
run before the true bottom-most vertex, so the walkers never meet the
`down` circulator.) -/
theorem c10_triangulation_diverges :
    glossary_y_monotone (ring_positions P10) ∧
    ring_simple (ring_positions P10) ∧
    2 < P10.n ∧
    ∀ fuel, y_monotone_triangulation fuel P10 = none :=
  ⟨P10_glossary_monotone, P10_ring_simple, by norm_num [MPoly.n, P10],
    P10_all_fuel_none⟩

/-! ### Claim C1: triangle count of the triangulator -/

/-- The simple, glossary-y-monotone polygon on which the triangulator
terminates but emits the wrong number of triangles. -/
def P1 : MPoly := ⟨[0, 1, 2, 3, 4, 5],
  [⟨0, 0⟩, ⟨3, 1⟩, ⟨2, 2⟩, ⟨1, 2⟩, ⟨3/2, 3⟩, ⟨0, 1⟩]⟩

/-- The position ring of `P1`, written out. -/
theorem ring_positions_P1 : ring_positions P1 =
    [⟨0, 0⟩, ⟨3, 1⟩, ⟨2, 2⟩, ⟨1, 2⟩, ⟨3/2, 3⟩, ⟨0, 1⟩] := rfl

/-- `P1` satisfies the glossary's y-monotonicity, splitting at ring
points 0 and 4. -/
theorem P1_glossary_monotone : glossary_y_monotone (ring_positions P1) := by
  rw [ring_positions_P1]
  refine ⟨0, by norm_num, 4, by norm_num, by norm_num, ?_, ?_⟩
  · intro t ht
    norm_num at ht
    interval_cases t <;>
      norm_num [rpos, List.getD]
  · intro t ht
    norm_num at ht
    interval_cases t <;>
      norm_num [rpos, List.getD]

/-- `P1` is a simple polygon. -/
theorem P1_ring_simple : ring_simple (ring_positions P1) := by
  rw [ring_positions_P1]
  constructor
  · intro i hi j hj hij
    norm_num at hi hj
    interval_cases i <;> interval_cases j <;>
      simp_all [rpos, List.getD, Vec2.mk.injEq]
  · intro i hi j hj hij
    norm_num at hi hj
    interval_cases i <;> interval_cases j <;>
      norm_num [rpos, List.getD, seg_contains, segs_intersect, cross2, vec2_sub,
        min_def, max_def]

/-- The concrete run of the triangulator on `P1`: the three search loops
and six main-loop iterations, evaluated step by step; it returns `Ok` but
emits only two triangles. -/
theorem c1_run : y_monotone_triangulation 7 P1 =
    some (Except.ok (), [(1, 0, 5), (4, 5, 1)]) := by
  have h1 : tri_step P1 ⟨2, Direction.Forward⟩
      ⟨⟨0, Direction.Backward⟩, ⟨1, Direction.Forward⟩, ⟨0, Direction.Backward⟩,
        [], [], 0⟩ =
      Sum.inr ⟨⟨5, Direction.Backward⟩, ⟨1, Direction.Forward⟩, ⟨0, Direction.Backward⟩,
        [⟨0, Direction.Backward⟩], [], 1⟩ := by
    simp only [tri_step, cnext, cprev, cvertex, MPoly.advance, MPoly.n, MPoly.posAt,
      MPoly.posOfVid, MPoly.vidOf, P1, Direction.reverse, is_below, List.getD]
    norm_num
  have h2 : tri_step P1 ⟨2, Direction.Forward⟩
      ⟨⟨5, Direction.Backward⟩, ⟨1, Direction.Forward⟩, ⟨0, Direction.Backward⟩,
        [⟨0, Direction.Backward⟩], [], 1⟩ =
      Sum.inr ⟨⟨4, Direction.Backward⟩, ⟨1, Direction.Forward⟩, ⟨5, Direction.Backward⟩,
        [⟨0, Direction.Backward⟩, ⟨5, Direction.Backward⟩], [], 2⟩ := by
    simp only [tri_step, cnext, cprev, cvertex, MPoly.advance, MPoly.n, MPoly.posAt,
      MPoly.posOfVid, MPoly.vidOf, P1, Direction.reverse, is_below, List.getD]
    norm_num
  have h3 : tri_step P1 ⟨2, Direction.Forward⟩
      ⟨⟨4, Direction.Backward⟩, ⟨1, Direction.Forward⟩, ⟨5, Direction.Backward⟩,
        [⟨0, Direction.Backward⟩, ⟨5, Direction.Backward⟩], [], 2⟩ =
      Sum.inr ⟨⟨2, Direction.Forward⟩, ⟨4, Direction.Backward⟩, ⟨1, Direction.Forward⟩,
        [⟨5, Direction.Backward⟩, ⟨1, Direction.Forward⟩], [(1, 0, 5)], 3⟩ := by
    simp only [tri_step, same_chain_branch, chain_switch_branch, cnext, cprev, cvertex,
      MPoly.advance, MPoly.n, MPoly.posAt, MPoly.posOfVid, MPoly.vidOf, P1,
      Direction.reverse, is_below, List.getD, List.getLast?, List.getLast]
    norm_num [angle_gt_pi, cross2, vec2_sub,
      (by decide : ¬(Direction.Forward = Direction.Backward)),
      (by decide : ¬(Direction.Backward = Direction.Forward))]
  have h4 : tri_step P1 ⟨2, Direction.Forward⟩
      ⟨⟨2, Direction.Forward⟩, ⟨4, Direction.Backward⟩, ⟨1, Direction.Forward⟩,
        [⟨5, Direction.Backward⟩, ⟨1, Direction.Forward⟩], [(1, 0, 5)], 3⟩ =
      Sum.inr ⟨⟨3, Direction.Backward⟩, ⟨2, Direction.Forward⟩, ⟨4, Direction.Backward⟩,
        [⟨1, Direction.Forward⟩, ⟨4, Direction.Backward⟩],
        [(1, 0, 5), (4, 5, 1)], 4⟩ := by
    simp only [tri_step, same_chain_branch, chain_switch_branch, cnext, cprev, cvertex,
      MPoly.advance, MPoly.n, MPoly.posAt, MPoly.posOfVid, MPoly.vidOf, P1,
      Direction.reverse, is_below, List.getD, List.getLast?, List.getLast]
    norm_num [angle_gt_pi, cross2, vec2_sub,
      (by decide : ¬(Direction.Forward = Direction.Backward)),
      (by decide : ¬(Direction.Backward = Direction.Forward))]
  have h5 : tri_step P1 ⟨2, Direction.Forward⟩
      ⟨⟨3, Direction.Backward⟩, ⟨2, Direction.Forward⟩, ⟨4, Direction.Backward⟩,
        [⟨1, Direction.Forward⟩, ⟨4, Direction.Backward⟩],
        [(1, 0, 5), (4, 5, 1)], 4⟩ =
      Sum.inr ⟨⟨2, Direction.Backward⟩, ⟨2, Direction.Forward⟩, ⟨3, Direction.Backward⟩,
        [⟨1, Direction.Forward⟩, ⟨4, Direction.Backward⟩, ⟨3, Direction.Backward⟩],
        [(1, 0, 5), (4, 5, 1)], 5⟩ := by
    simp only [tri_step, same_chain_branch, chain_switch_branch, cnext, cprev, cvertex,
      MPoly.advance, MPoly.n, MPoly.posAt, MPoly.posOfVid, MPoly.vidOf, P1,
      Direction.reverse, is_below, List.getD, List.getLast?, List.getLast]
    rw [pop_loop]
    norm_num [angle_gt_pi, cross2, vec2_sub, List.getLast, MPoly.posOfVid, MPoly.vidOf,
      P1, List.getD,
      (by decide : ¬(Direction.Forward = Direction.Backward)),
      (by decide : ¬(Direction.Backward = Direction.Forward))]
  have h6 : tri_step P1 ⟨2, Direction.Forward⟩
      ⟨⟨2, Direction.Backward⟩, ⟨2, Direction.Forward⟩, ⟨3, Direction.Backward⟩,
        [⟨1, Direction.Forward⟩, ⟨4, Direction.Backward⟩, ⟨3, Direction.Backward⟩],
        [(1, 0, 5), (4, 5, 1)], 5⟩ =
      Sum.inl ⟨⟨2, Direction.Backward⟩, ⟨2, Direction.Forward⟩, ⟨3, Direction.Backward⟩,
        [⟨1, Direction.Forward⟩, ⟨4, Direction.Backward⟩, ⟨3, Direction.Backward⟩,
          ⟨2, Direction.Backward⟩],
        [(1, 0, 5), (4, 5, 1)], 5⟩ := by
    simp only [tri_step, same_chain_branch, chain_switch_branch, cnext, cprev, cvertex,
      MPoly.advance, MPoly.n, MPoly.posAt, MPoly.posOfVid, MPoly.vidOf, P1,
      Direction.reverse, is_below, List.getD, List.getLast?, List.getLast]
    rw [pop_loop]
    norm_num [angle_gt_pi, cross2, vec2_sub, List.getLast, MPoly.posOfVid, MPoly.vidOf,
      P1, List.getD,
      (by decide : ¬(Direction.Forward = Direction.Backward)),
      (by decide : ¬(Direction.Backward = Direction.Forward))]
  have e1 := tri_loop_cont P1 ⟨2, Direction.Forward⟩ 6 _ _ h1
  have e2 := tri_loop_cont P1 ⟨2, Direction.Forward⟩ 5 _ _ h2
  have e3 := tri_loop_cont P1 ⟨2, Direction.Forward⟩ 4 _ _ h3
  have e4 := tri_loop_cont P1 ⟨2, Direction.Forward⟩ 3 _ _ h4
  have e5 := tri_loop_cont P1 ⟨2, Direction.Forward⟩ 2 _ _ h5
  have e6 := tri_loop_done P1 ⟨2, Direction.Forward⟩ 1 _ _ h6
  have hloop : tri_loop P1 ⟨2, Direction.Forward⟩ 7
      ⟨⟨0, Direction.Backward⟩, ⟨1, Direction.Forward⟩, ⟨0, Direction.Backward⟩,
        [], [], 0⟩ =
      some ⟨⟨2, Direction.Backward⟩, ⟨2, Direction.Forward⟩, ⟨3, Direction.Backward⟩,
        [⟨1, Direction.Forward⟩, ⟨4, Direction.Backward⟩, ⟨3, Direction.Backward⟩,
          ⟨2, Direction.Backward⟩],
        [(1, 0, 5), (4, 5, 1)], 5⟩ := by
    rw [show (7 : Nat) = 6 + 1 from rfl, e1, show (6 : Nat) = 5 + 1 from rfl, e2,
      show (5 : Nat) = 4 + 1 from rfl, e3, show (4 : Nat) = 3 + 1 from rfl, e4,
      show (3 : Nat) = 2 + 1 from rfl, e5, show (2 : Nat) = 1 + 1 from rfl, e6]
  have hf1 : find_initial_down P1 ⟨0, Direction.Forward⟩ 7 ⟨0, Direction.Forward⟩ =
      some ⟨1, Direction.Forward⟩ := by
    norm_num [find_initial_down, cnext, cvertex, MPoly.advance, MPoly.n, MPoly.posAt,
      MPoly.posOfVid, MPoly.vidOf, P1, List.getD]
  have hf2 : find_down_loop P1 ⟨1, Direction.Forward⟩ 7 ⟨1, Direction.Forward⟩
      ⟨3, 1⟩ = some ⟨2, Direction.Forward⟩ := by
    norm_num [find_down_loop, cnext, cprev, cvertex, MPoly.advance, MPoly.n, MPoly.posAt,
      MPoly.posOfVid, MPoly.vidOf, P1, Direction.reverse, is_below, List.getD,
      (by decide : ¬((⟨2, Direction.Forward⟩ : Circulator) = ⟨1, Direction.Forward⟩))]
  have hf3 : find_up_loop P1 ⟨0, Direction.Backward⟩ 7 ⟨0, Direction.Backward⟩
      ⟨0, 0⟩ = some ⟨0, Direction.Backward⟩ := by
    norm_num [find_up_loop, cnext, cprev, cvertex, MPoly.advance, MPoly.n, MPoly.posAt,
      MPoly.posOfVid, MPoly.vidOf, P1, Direction.reverse, is_below, List.getD]
  norm_num [y_monotone_triangulation, hf1, hf2, hf3, hloop, is_below, cvertex, cnext, cprev,
    MPoly.advance, MPoly.n, MPoly.posAt, MPoly.posOfVid, MPoly.vidOf,
    (show P1.pts = [0, 1, 2, 3, 4, 5] from rfl),
    (show P1.positions = [⟨0, 0⟩, ⟨3, 1⟩, ⟨2, 2⟩, ⟨1, 2⟩, ⟨3/2, 3⟩, ⟨0, 1⟩] from rfl),
    Direction.reverse, List.getD]

/-- Claim C1: "pushes exactly n - 2 triangle index triples" for every
y-monotone simple polygon view with n >= 3.  Refuted: on the simple,
glossary-y-monotone six-gon `P1` the triangulator terminates normally
but emits 2 triangles, not 6 - 2 = 4 (the run also contradicts the
code's own `debug_assert_eq!(triangle_count, num_points - 2)`). -/
theorem c1_triangle_count_wrong :
    glossary_y_monotone (ring_positions P1) ∧
    ring_simple (ring_positions P1) ∧
    P1.n = 6 ∧
    y_monotone_triangulation 7 P1 =
      some (Except.ok (), [(1, 0, 5), (4, 5, 1)]) ∧
    [(1, 0, 5), (4, 5, 1)].length ≠ P1.n - 2 :=
  ⟨P1_glossary_monotone, P1_ring_simple, rfl, c1_run, by norm_num [MPoly.n, P1]⟩

/-! ### Claim C5: the sweep-status invariant of the decomposition -/

instance sweep_le_total (P : CPolygon) (y : ℚ) : IsTotal CPointId (sweep_le P y) :=
  ⟨fun a b => le_total _ _⟩

instance sweep_le_is_trans (P : CPolygon) (y : ℚ) : IsTrans CPointId (sweep_le P y) :=
  ⟨fun _ _ _ hab hbc => le_trans hab hbc⟩

/-- Running the dispatch loop over a concatenation runs the two parts in
sequence. -/
theorem decomp_run_append (P : CPolygon) (l1 l2 : List CPointId) (st : DecompState) :
    decomp_run P (l1 ++ l2) st =
      match decomp_run P l1 st with
      | none => none
      | some st1 => decomp_run P l2 st1 := by
  induction l1 generalizing st with
  | nil => simp [decomp_run]
  | cons e tl ih =>
    simp only [List.cons_append, decomp_run]
    cases decomp_step P st e with
    | none => rfl
    | some st2 => exact ih st2

/-- Every dispatch updates the sweep by an optional removal of the
previous point's edge followed by an optional sorted insertion of the
current point's edge. -/
theorem decomp_step_sweep_shape (P : CPolygon) (st st₂ : DecompState) (e : CPointId)
    (h : decomp_step P st e = some st₂) :
    ∃ s', (s' = st.sweep ∨ s' = sweep_remove st.sweep (P.prevP e)) ∧
      (st₂.sweep = s' ∨ st₂.sweep = sweep_add P (P.posOf e) s' e) := by
  simp only [decomp_step] at h
  cases hvt : get_vertex_type (P.posOf (P.prevP e)) (P.posOf e) (P.posOf (P.nextP e)) with
  | Start =>
    rw [hvt] at h
    dsimp only at h
    injection h with h2
    exact ⟨st.sweep, Or.inl rfl, Or.inr (by rw [← h2])⟩
  | End =>
    rw [hvt] at h
    dsimp only at h
    injection h with h2
    exact ⟨sweep_remove st.sweep (P.prevP e), Or.inr rfl, Or.inl (by rw [← h2])⟩
  | Split =>
    rw [hvt] at h
    dsimp only at h
    cases hfr : find_right_of_current_vertex P (P.posOf e) st.sweep with
    | none => rw [hfr] at h; exact absurd h (by simp)
    | some ej =>
      rw [hfr] at h
      dsimp only at h
      cases hh : hget st.helper ej with
      | none => rw [hh] at h; exact absurd h (by simp)
      | some hv =>
        rw [hh] at h
        dsimp only at h
        injection h with h2
        exact ⟨st.sweep, Or.inl rfl, Or.inr (by rw [← h2])⟩
  | Merge =>
    rw [hvt] at h
    dsimp only at h
    cases hfr : find_right_of_current_vertex P (P.posOf e)
        (sweep_remove st.sweep (P.prevP e)) with
    | none => rw [hfr] at h; exact absurd h (by simp)
    | some ej =>
      rw [hfr] at h
      dsimp only at h
      injection h with h2
      exact ⟨sweep_remove st.sweep (P.prevP e), Or.inr rfl, Or.inl (by rw [← h2])⟩
  | Right =>
    rw [hvt] at h
    dsimp only at h
    injection h with h2
    exact ⟨sweep_remove st.sweep (P.prevP e), Or.inr rfl, Or.inr (by rw [← h2])⟩
  | Left =>
    rw [hvt] at h
    dsimp only at h
    cases hfr : find_right_of_current_vertex P (P.posOf e) st.sweep with
    | none => rw [hfr] at h; exact absurd h (by simp)
    | some ej =>
      rw [hfr] at h
      dsimp only at h
      injection h with h2
      exact ⟨st.sweep, Or.inl rfl, Or.inl (by rw [← h2])⟩

/-- `sweep_add` keeps the sweep duplicate-free when the new edge is
fresh. -/
theorem sweep_add_nodup (P : CPolygon) (cur : Vec2) (s : List CPointId)
    (e : CPointId) (hnd : s.Nodup) (he : e ∉ s) : (sweep_add P cur s e).Nodup := by
  unfold sweep_add
  refine (List.perm_insertionSort _ _).nodup_iff.mpr ?_
  rw [List.nodup_append]
  exact ⟨hnd, List.nodup_singleton e, by
    intro x hx hx'
    rw [List.mem_singleton] at hx'
    exact he (hx' ▸ hx)⟩

/-- Dispatching preserves the sweep's freedom from duplicates. -/
theorem decomp_step_nodup (P : CPolygon) (st st₂ : DecompState) (e : CPointId)
    (h : decomp_step P st e = some st₂) (hnd : st.sweep.Nodup)
    (he : e ∉ st.sweep) : st₂.sweep.Nodup := by
  obtain ⟨s', hs', h₂⟩ := decomp_step_sweep_shape P st st₂ e h
  have hnd' : s'.Nodup := by
    rcases hs' with h' | h'
    · rw [h']; exact hnd
    · rw [h']; exact hnd.filter _
  have he' : e ∉ s' := by
    rcases hs' with h' | h'
    · rw [h']; exact he
    · rw [h']
      intro hc
      exact he ((mem_sweep_remove _ _ _).mp hc).1
  rcases h₂ with h' | h'
  · rw [h']; exact hnd'
  · rw [h']; exact sweep_add_nodup P _ s' e hnd' he'

/-- Dispatching preserves sortedness of the sweep by x-intercept at the
current vertex's height: removal is a sublist, insertion re-sorts at
exactly that height. -/
theorem decomp_step_sorted (P : CPolygon) (st st₂ : DecompState) (e : CPointId)
    (h : decomp_step P st e = some st₂)
    (hs : List.Pairwise (sweep_le P (P.posOf e).y) st.sweep) :
    List.Pairwise (sweep_le P (P.posOf e).y) st₂.sweep := by
  obtain ⟨s', hs', h₂⟩ := decomp_step_sweep_shape P st st₂ e h
  have hps' : List.Pairwise (sweep_le P (P.posOf e).y) s' := by
    rcases hs' with h' | h'
    · rw [h']; exact hs
    · rw [h']; exact hs.sublist (List.filter_sublist _)
  rcases h₂ with h' | h'
  · rw [h']; exact hps'
  · rw [h']
    exact List.sorted_insertionSort (sweep_le P (P.posOf e).y) (s' ++ [e])

/-- An affine function that is nonnegative at `y0` and negative at
`y1 ≥ y0` has a root between them. -/
theorem affine_sign_change (c m y0 y1 : ℚ) (hy : y0 ≤ y1)
    (h0 : 0 ≤ c + m * y0) (h1 : c + m * y1 < 0) :
    ∃ t, y0 ≤ t ∧ t ≤ y1 ∧ c + m * t = 0 := by
  have hm : m < 0 := by nlinarith
  refine ⟨-c / m, ?_, ?_, ?_⟩
  · rw [le_div_iff_of_neg hm]
    linarith
  · rw [div_le_iff_of_neg hm]
    linarith
  · have hm0 : m ≠ 0 := ne_of_lt hm
    field_simp
    ring

/-- The point the sweep comparator evaluates — the x-intercept of an
edge at a height inside the edge's y-span — lies on the closed edge
segment. -/
theorem edge_point_on_segment (a b : Vec2) (t : ℚ) (h1 : a.y ≤ t) (h2 : t ≤ b.y) :
    seg_contains a b ⟨intersect_segment_with_horizontal a b t, t⟩ := by
  unfold seg_contains intersect_segment_with_horizontal cross2 vec2_sub
  by_cases hv : b.y - a.y = 0
  · have hab : b.y = a.y := by linarith
    have ht : t = a.y := le_antisymm (by linarith) h1
    simp only [if_pos hv]
    refine ⟨?_, ?_, ?_, ?_, ?_⟩
    · rw [ht]
      linear_combination (a.x - max a.x b.x) * hv
    · exact min_le_max
    · exact le_refl _
    · rw [ht, hab]
      simp
    · rw [ht, hab]
      simp
  · simp only [if_neg hv]
    have hy : a.y < b.y := lt_of_le_of_ne (le_trans h1 h2) (fun hc => hv (by rw [hc]; ring))
    have hvpos : 0 < b.y - a.y := by linarith
    have hu : (t - a.y) * (b.x - a.x) / (b.y - a.y) * (b.y - a.y) =
        (t - a.y) * (b.x - a.x) := by
      field_simp
    constructor
    · field_simp
      ring
    · refine ⟨?_, ?_, ?_, ?_⟩
      · rcases le_total a.x b.x with hx | hx
        · rw [min_eq_left hx]
          nlinarith [hu, hvpos]
        · rw [min_eq_right hx]
          nlinarith [hu, hvpos]
      · rcases le_total a.x b.x with hx | hx
        · rw [max_eq_right hx]
          nlinarith [hu, hvpos]
        · rw [max_eq_left hx]
          nlinarith [hu, hvpos]
      · rw [min_eq_left (le_of_lt hy)]
        exact h1
      · rw [max_eq_right (le_of_lt hy)]
        exact h2

/-- For a non-horizontal edge the x-intercept is an explicit affine
function of the height. -/
theorem edge_x_at_affine (P : CPolygon) (x : CPointId)
    (hv : (P.posOf (P.nextP x)).y - (P.posOf x).y ≠ 0) (y : ℚ) :
    edge_x_at P y x =
      ((P.posOf x).x - (P.posOf x).y *
          (((P.posOf (P.nextP x)).x - (P.posOf x).x) /
            ((P.posOf (P.nextP x)).y - (P.posOf x).y))) +
        (((P.posOf (P.nextP x)).x - (P.posOf x).x) /
          ((P.posOf (P.nextP x)).y - (P.posOf x).y)) * y := by
  unfold edge_x_at intersect_segment_with_horizontal
  rw [if_neg hv]
  field_simp
  ring

/-- Core order-preservation step: two sweep edges that both span the
height interval `[y0, y1]` and never share a point keep their
x-intercept order from `y0` to `y1`. -/
theorem edge_x_at_shift (P : CPolygon) (x z : CPointId) (y0 y1 : ℚ)
    (hy : y0 ≤ y1)
    (hx1 : (P.posOf x).y ≤ y0) (hx2 : y1 ≤ (P.posOf (P.nextP x)).y)
    (hz1 : (P.posOf z).y ≤ y0) (hz2 : y1 ≤ (P.posOf (P.nextP z)).y)
    (hnc : ∀ q : Vec2, ¬(seg_contains (P.posOf x) (P.posOf (P.nextP x)) q ∧
        seg_contains (P.posOf z) (P.posOf (P.nextP z)) q))
    (h0 : edge_x_at P y0 x ≤ edge_x_at P y0 z) :
    edge_x_at P y1 x ≤ edge_x_at P y1 z := by
  rcases eq_or_lt_of_le hy with heq | hlt01
  · rw [← heq]
    exact h0
  by_contra hlt
  push_neg at hlt
  have hvx : (P.posOf (P.nextP x)).y - (P.posOf x).y ≠ 0 := by
    have : (P.posOf x).y < (P.posOf (P.nextP x)).y := by linarith
    linarith
  have hvz : (P.posOf (P.nextP z)).y - (P.posOf z).y ≠ 0 := by
    have : (P.posOf z).y < (P.posOf (P.nextP z)).y := by linarith
    linarith
  set mx := ((P.posOf (P.nextP x)).x - (P.posOf x).x) /
    ((P.posOf (P.nextP x)).y - (P.posOf x).y) with hmx
  set mz := ((P.posOf (P.nextP z)).x - (P.posOf z).x) /
    ((P.posOf (P.nextP z)).y - (P.posOf z).y) with hmz
  set cx := (P.posOf x).x - (P.posOf x).y * mx with hcx
  set cz := (P.posOf z).x - (P.posOf z).y * mz with hcz
  have hfx : ∀ y : ℚ, edge_x_at P y x = cx + mx * y := fun y =>
    edge_x_at_affine P x hvx y
  have hfz : ∀ y : ℚ, edge_x_at P y z = cz + mz * y := fun y =>
    edge_x_at_affine P z hvz y
  have h0' : 0 ≤ (cz - cx) + (mz - mx) * y0 := by
    have := h0
    rw [hfx y0, hfz y0] at this
    linarith
  have h1' : (cz - cx) + (mz - mx) * y1 < 0 := by
    have := hlt
    rw [hfx y1, hfz y1] at this
    linarith
  obtain ⟨t, ht0, ht1, hroot⟩ := affine_sign_change (cz - cx) (mz - mx) y0 y1 hy h0' h1'
  have heqt : edge_x_at P t x = edge_x_at P t z := by
    rw [hfx t, hfz t]
    linarith
  have hq1 : seg_contains (P.posOf x) (P.posOf (P.nextP x))
      ⟨edge_x_at P t x, t⟩ :=
    edge_point_on_segment _ _ t (by linarith) (by linarith)
  have hq2 : seg_contains (P.posOf z) (P.posOf (P.nextP z))
      ⟨edge_x_at P t x, t⟩ := by
    rw [heqt]
    exact edge_point_on_segment _ _ t (by linarith) (by linarith)
  exact hnc ⟨edge_x_at P t x, t⟩ ⟨hq1, hq2⟩

/-- One dispatch extends the sweep-membership invariant from `past` to
`past ++ [e]`, when the event list splits as `past ++ e :: rest`. -/
theorem decomp_step_inv (P : CPolygon)
    (H1 : ∀ p ∈ P.pointIds, P.posOf p ≠ P.posOf (P.nextP p))
    (past rest : List CPointId) (e : CPointId) (st st₂ : DecompState)
    (hsplit : sorted_edges P = past ++ e :: rest)
    (hinv : SweepInv P past st.sweep)
    (hstep : decomp_step P st e = some st₂) :
    SweepInv P (past ++ [e]) st₂.sweep := by
  have hmem_split : ∀ a, a ∈ past ++ e :: rest ↔ a ∈ sorted_edges P := by
    intro a
    rw [hsplit]
  have hpast_pids : ∀ a ∈ past, a ∈ P.pointIds := by
    intro a ha
    exact (mem_sorted_edges P).mp
      ((hmem_split a).mp (List.mem_append_left _ ha))
  have he_pids : e ∈ P.pointIds :=
    (mem_sorted_edges P).mp
      ((hmem_split e).mp (List.mem_append_right _ (List.mem_cons_self e rest)))
  have hnodup : (past ++ e :: rest).Nodup := by
    rw [← hsplit]
    exact sorted_edges_nodup P
  have he_not_past : e ∉ past := by
    intro hc
    obtain ⟨-, h2⟩ := List.nodup_append.mp hnodup
    exact h2.2 hc (List.mem_cons_self e rest)
  have hsorted : List.Pairwise (sort_le P) (past ++ e :: rest) := by
    rw [← hsplit]
    exact sorted_edges_sorted P
  have hpast_le : ∀ a ∈ past, sort_le P a e := by
    intro a ha
    exact (List.pairwise_append.mp hsorted).2.2 a ha e (List.mem_cons_self e rest)
  have hnext_ne : P.nextP e ≠ e := by
    intro hc
    exact H1 e he_pids (by rw [hc])
  have hprev_pids : P.prevP e ∈ P.pointIds := prevP_mem P he_pids
  have hprev_pos_ne : P.posOf (P.prevP e) ≠ P.posOf e := by
    have := H1 (P.prevP e) hprev_pids
    rwa [nextP_prevP P he_pids] at this
  intro x
  rw [decomp_step_sweep_mem P st st₂ e hstep x, hinv x]
  by_cases hxe : x = e
  · subst hxe
    constructor
    · rintro (⟨⟨hxp, -, -⟩, -⟩ | ⟨hins, -⟩)
      · exact absurd hxp he_not_past
      · refine ⟨List.mem_append_right _ (List.mem_singleton_self x), hins, ?_⟩
        rintro hmem
        rcases List.mem_append.mp hmem with hnp | hne
        · have hle := hpast_le _ hnp
          rw [sort_le_iff_not_below] at hle
          have hxb : is_below (P.posOf x) (P.posOf (P.nextP x)) = false := by
            unfold insb at hins
            simpa using hins
          have := is_below_false_of_ne _ _ (H1 x he_pids) hxb
          rw [this] at hle
          exact absurd hle (by simp)
        · exact hnext_ne (List.mem_singleton.mp hne)
    · rintro ⟨-, hins, -⟩
      exact Or.inr ⟨hins, rfl⟩
  · by_cases hxprev : x = P.prevP e
    · have hnx : P.nextP x = e := by
        rw [hxprev, nextP_prevP P he_pids]
      constructor
      · rintro (⟨⟨hxp, hxi, -⟩, himp⟩ | ⟨-, hxe'⟩)
        · cases hbp : is_below (P.posOf e) (P.posOf (P.prevP e)) with
          | true => exact absurd (himp hbp) (by simp [hxprev])
          | false =>
            have hrev := is_below_false_of_ne _ _ (Ne.symm hprev_pos_ne) hbp
            have : insb P x = false := by
              unfold insb
              rw [hxprev] at hnx ⊢
              rw [hnx, hrev]
              rfl
            rw [hxprev] at hxi
            rw [hxprev] at this
            exact absurd hxi (by simp [this])
        · exact absurd hxe' hxe
      · rintro ⟨-, -, hnot⟩
        exact absurd (List.mem_append_right _ (by simp [hnx])) hnot
    · constructor
      · rintro (⟨⟨hxp, hxi, hxn⟩, -⟩ | ⟨-, hxe'⟩)
        · refine ⟨List.mem_append_left _ hxp, hxi, ?_⟩
          intro hmem
          rcases List.mem_append.mp hmem with hnp | hne
          · exact hxn hnp
          · have hx_pids := hpast_pids x hxp
            have : x = P.prevP e := by
              rw [← List.mem_singleton.mp hne, prevP_nextP P hx_pids]
            exact hxprev this
        · exact absurd hxe' hxe
      · rintro ⟨hxp', hxi, hxn'⟩
        rcases List.mem_append.mp hxp' with hxp | hxe'
        · refine Or.inl ⟨⟨hxp, hxi, ?_⟩, fun _ => hxprev⟩
          intro hc
          exact hxn' (List.mem_append_left _ hc)
        · exact absurd (List.mem_singleton.mp hxe') hxe

/-- `sort_le` gives a weak y-inequality. -/
theorem sort_le_y (P : CPolygon) {a b : CPointId} (h : sort_le P a b) :
    (P.posOf a).y ≤ (P.posOf b).y := by
  rcases h with h | ⟨h, -⟩
  · exact le_of_lt h
  · exact le_of_eq h

/-- `sort_le` is reflexive. -/
theorem sort_le_refl (P : CPolygon) (a : CPointId) : sort_le P a a :=
  Or.inr ⟨rfl, le_refl _⟩

/-- The full per-dispatch state of the sweep, established along every
prefix of the event list: the membership invariant, freedom from
duplicates, and sortedness by x-intercept at the next event's height.
`H2` says that edges of the polygon which do not share a ring vertex
never share a geometric point. -/
theorem decomp_run_prefix_props (P : CPolygon)
    (H1 : ∀ p ∈ P.pointIds, P.posOf p ≠ P.posOf (P.nextP p))
    (H2 : ∀ a ∈ P.pointIds, ∀ b ∈ P.pointIds, a ≠ b → b ≠ P.nextP a →
      a ≠ P.nextP b → ∀ q : Vec2,
        ¬(seg_contains (P.posOf a) (P.posOf (P.nextP a)) q ∧
          seg_contains (P.posOf b) (P.posOf (P.nextP b)) q)) :
    ∀ past e rest st,
      sorted_edges P = past ++ e :: rest →
      decomp_run P past ⟨[], [], []⟩ = some st →
      SweepInv P past st.sweep ∧ st.sweep.Nodup ∧
        List.Pairwise (sweep_le P (P.posOf e).y) st.sweep := by
  intro past
  induction past using List.reverseRecOn with
  | nil =>
    intro e rest st hsplit hrun
    simp only [decomp_run, Option.some.injEq] at hrun
    rw [← hrun]
    refine ⟨?_, by simp, by simp⟩
    intro x
    simp [SweepInv]
  | append_singleton past' a ih =>
    intro e rest st hsplit hrun
    rw [decomp_run_append] at hrun
    cases h1 : decomp_run P past' ⟨[], [], []⟩ with
    | none => rw [h1] at hrun; exact absurd hrun (by simp)
    | some st₁ =>
      rw [h1] at hrun
      simp only [decomp_run] at hrun
      cases h2 : decomp_step P st₁ a with
      | none => rw [h2] at hrun; exact absurd hrun (by simp)
      | some st₂ =>
        rw [h2] at hrun
        simp only [decomp_run, Option.some.injEq] at hrun
        have hsplit' : sorted_edges P = past' ++ a :: (e :: rest) := by
          rw [hsplit]
          simp
        obtain ⟨hinv₁, hnd₁, hsort₁⟩ := ih a (e :: rest) st₁ hsplit' h1
        have hinv₂ : SweepInv P (past' ++ [a]) st₂.sweep :=
          decomp_step_inv P H1 past' (e :: rest) a st₁ st₂ hsplit' hinv₁ h2
        have hnodup_ev : (past' ++ a :: (e :: rest)).Nodup := by
          rw [← hsplit']
          exact sorted_edges_nodup P
        have ha_not_past : a ∉ past' := by
          intro hc
          obtain ⟨-, h2'⟩ := List.nodup_append.mp hnodup_ev
          exact h2'.2 hc (List.mem_cons_self a (e :: rest))
        have ha_notin : a ∉ st₁.sweep := by
          intro hc
          exact ha_not_past ((hinv₁ a).mp hc).1
        have hnd₂ : st₂.sweep.Nodup := decomp_step_nodup P st₁ st₂ a h2 hnd₁ ha_notin
        have hsort₂ : List.Pairwise (sweep_le P (P.posOf a).y) st₂.sweep :=
          decomp_step_sorted P st₁ st₂ a h2 hsort₁
        have hsorted_ev : List.Pairwise (sort_le P) (past' ++ a :: (e :: rest)) := by
          rw [← hsplit']
          exact sorted_edges_sorted P
        have hpast_le : ∀ b ∈ past' ++ [a], sort_le P b a := by
          intro b hb
          rcases List.mem_append.mp hb with hb | hb
          · exact (List.pairwise_append.mp hsorted_ev).2.2 b hb a
              (List.mem_cons_self a (e :: rest))
          · rw [List.mem_singleton.mp hb]
            exact sort_le_refl P a
        have hae : sort_le P a e :=
          List.rel_of_pairwise_cons (List.pairwise_append.mp hsorted_ev).2.1
            (List.mem_cons_self e rest)
        have hmem_pids : ∀ b ∈ past' ++ [a], b ∈ P.pointIds := by
          intro b hb
          refine (mem_sorted_edges P).mp ?_
          rw [hsplit']
          rcases List.mem_append.mp hb with hb | hb
          · exact List.mem_append_left _ hb
          · rw [List.mem_singleton.mp hb]
            exact List.mem_append_right _ (List.mem_cons_self a (e :: rest))
        have hfacts : ∀ x ∈ st₂.sweep, x ∈ P.pointIds ∧
            (P.posOf x).y ≤ (P.posOf a).y ∧
            (P.posOf e).y ≤ (P.posOf (P.nextP x)).y ∧
            P.nextP x ∉ past' ++ [a] := by
          intro x hx
          obtain ⟨hxp, -, hxn⟩ := (hinv₂ x).mp hx
          have hx_pids : x ∈ P.pointIds := hmem_pids x hxp
          refine ⟨hx_pids, sort_le_y P (hpast_le x hxp), ?_, hxn⟩
          have hnx_pids : P.nextP x ∈ P.pointIds := nextP_mem P hx_pids
          have hnx_ev : P.nextP x ∈ past' ++ a :: (e :: rest) := by
            rw [← hsplit']
            exact (mem_sorted_edges P).mpr hnx_pids
          have hnx_tail : P.nextP x ∈ e :: rest := by
            rcases List.mem_append.mp hnx_ev with hc | hc
            · exact absurd (List.mem_append_left _ hc) hxn
            · rcases List.mem_cons.mp hc with hc' | hc'
              · exact absurd (List.mem_append_right _ (by simp [hc'])) hxn
              · exact hc'
          rcases List.mem_cons.mp hnx_tail with hc | hc
          · rw [hc]
          · exact sort_le_y P
              (List.rel_of_pairwise_cons
                (List.pairwise_cons.mp (List.pairwise_append.mp hsorted_ev).2.1).2 hc)
        have hshift : List.Pairwise (sweep_le P (P.posOf e).y) st₂.sweep := by
          have hcomb := List.Pairwise.and hnd₂ hsort₂
          refine hcomb.imp_of_mem ?_
          intro u v hu hv huv
          obtain ⟨hune, hle⟩ := huv
          obtain ⟨hu_pids, hu_ya, hu_ye, hu_nx⟩ := hfacts u hu
          obtain ⟨hv_pids, hv_ya, hv_ye, hv_nx⟩ := hfacts v hv
          have hu_past : u ∈ past' ++ [a] := ((hinv₂ u).mp hu).1
          have hv_past : v ∈ past' ++ [a] := ((hinv₂ v).mp hv).1
          have hya_ye : (P.posOf a).y ≤ (P.posOf e).y := sort_le_y P hae
          have hv_ne_nu : v ≠ P.nextP u := by
            intro hc
            exact hu_nx (hc ▸ hv_past)
          have hu_ne_nv : u ≠ P.nextP v := by
            intro hc
            exact hv_nx (hc ▸ hu_past)
          exact edge_x_at_shift P u v (P.posOf a).y (P.posOf e).y hya_ye
            hu_ya hu_ye hv_ya hv_ye
            (H2 u hu_pids v hv_pids hune hv_ne_nu hu_ne_nv) hle
        rw [← hrun]
        exact ⟨hinv₂, hnd₂, hshift⟩

/-- Every edge in a sweep satisfying the membership invariant straddles
the height of the next event: its origin was already dispatched, its
endpoint was not. -/
theorem sweep_straddle (P : CPolygon) (past rest : List CPointId) (e : CPointId)
    (sweep : List CPointId)
    (hsplit : sorted_edges P = past ++ e :: rest)
    (hinv : SweepInv P past sweep) :
    ∀ x ∈ sweep, (P.posOf x).y ≤ (P.posOf e).y ∧
      (P.posOf e).y ≤ (P.posOf (P.nextP x)).y := by
  have hsorted : List.Pairwise (sort_le P) (past ++ e :: rest) := by
    rw [← hsplit]
    exact sorted_edges_sorted P
  intro x hx
  obtain ⟨hxp, -, hxn⟩ := (hinv x).mp hx
  have hx_pids : x ∈ P.pointIds := by
    refine (mem_sorted_edges P).mp ?_
    rw [hsplit]
    exact List.mem_append_left _ hxp
  refine ⟨sort_le_y P ((List.pairwise_append.mp hsorted).2.2 x hxp e
    (List.mem_cons_self e rest)), ?_⟩
  have hnx_pids : P.nextP x ∈ P.pointIds := nextP_mem P hx_pids
  have hnx_ev : P.nextP x ∈ past ++ e :: rest := by
    rw [← hsplit]
    exact (mem_sorted_edges P).mpr hnx_pids
  have hnx_tail : P.nextP x ∈ e :: rest := by
    rcases List.mem_append.mp hnx_ev with hc | hc
    · exact absurd hc hxn
    · exact hc
  rcases List.mem_cons.mp hnx_tail with hc | hc
  · rw [hc]
  · exact sort_le_y P
      (List.rel_of_pairwise_cons (List.pairwise_append.mp hsorted).2.1 hc)



theorem sorted_edges_triPoly : sorted_edges triPoly = [(0, 1), (0, 0), (0, 2)] := rfl

/-- In the triangle every pair of distinct edges shares a ring vertex,
so the no-shared-point hypothesis holds vacuously. -/
theorem triPoly_noncross :
    ∀ a ∈ triPoly.pointIds, ∀ b ∈ triPoly.pointIds, a ≠ b → b ≠ triPoly.nextP a →
      a ≠ triPoly.nextP b → ∀ q : Vec2,
        ¬(seg_contains (triPoly.posOf a) (triPoly.posOf (triPoly.nextP a)) q ∧
          seg_contains (triPoly.posOf b) (triPoly.posOf (triPoly.nextP b)) q) := by
  have hids : triPoly.pointIds = [(0, 0), (0, 1), (0, 2)] := rfl
  intro a ha b hb hne hn1 hn2 q
  rw [hids] at ha hb
  fin_cases ha <;> fin_cases hb <;>
    first
    | exact absurd rfl hne
    | exact absurd rfl hn1
    | exact absurd rfl hn2

/-- Claim C5.  At the moment each vertex of the sorted event list is
dispatched (the state after running the preceding prefix), every edge in
the sweep state straddles the horizontal line through the current
vertex, and the sweep is sorted by non-decreasing x-intercept at the
current height.  Valid polygons here: consecutive ring points at
distinct positions, and edges without a common ring vertex without a
common geometric point. -/
theorem decomposition_sweep_status_invariant (P : CPolygon)
    (H1 : ∀ p ∈ P.pointIds, P.posOf p ≠ P.posOf (P.nextP p))
    (H2 : ∀ a ∈ P.pointIds, ∀ b ∈ P.pointIds, a ≠ b → b ≠ P.nextP a →
      a ≠ P.nextP b → ∀ q : Vec2,
        ¬(seg_contains (P.posOf a) (P.posOf (P.nextP a)) q ∧
          seg_contains (P.posOf b) (P.posOf (P.nextP b)) q))
    (past : List CPointId) (e : CPointId) (rest : List CPointId) (st : DecompState)
    (hsplit : sorted_edges P = past ++ e :: rest)
    (hrun : decomp_run P past ⟨[], [], []⟩ = some st) :
    (∀ x ∈ st.sweep, (P.posOf x).y ≤ (P.posOf e).y ∧
      (P.posOf e).y ≤ (P.posOf (P.nextP x)).y) ∧
    List.Pairwise (sweep_le P (P.posOf e).y) st.sweep := by
  obtain ⟨hinv, -, hsort⟩ := decomp_run_prefix_props P H1 H2 past e rest st hsplit hrun
  exact ⟨sweep_straddle P past rest e st.sweep hsplit hinv, hsort⟩

/-- Witness for C5: the theorem applied to the dispatch of the first
event of the triangle's sorted event list. -/
theorem decomposition_sweep_status_invariant_witness :
    sorted_edges triPoly = [] ++ (0, 1) :: [(0, 0), (0, 2)] ∧
    ((∀ x ∈ (⟨[], [], []⟩ : DecompState).sweep,
        (triPoly.posOf x).y ≤ (triPoly.posOf (0, 1)).y ∧
        (triPoly.posOf (0, 1)).y ≤ (triPoly.posOf (triPoly.nextP x)).y) ∧
      List.Pairwise (sweep_le triPoly (triPoly.posOf (0, 1)).y)
        (⟨[], [], []⟩ : DecompState).sweep) :=
  ⟨sorted_edges_triPoly,
    decomposition_sweep_status_invariant triPoly triPoly_consecutive_distinct
      triPoly_noncross [] (0, 1) [(0, 0), (0, 2)] ⟨[], [], []⟩
      sorted_edges_triPoly rfl⟩

end MonotoneTess
